import Mathlib

/-!
# Rolling-checksum evaluation driver (`roll/main.go`)

A shallow embedding of the Go program `roll/main.go` and a verification of its
natural-language specification.

Conventions of the embedding.

* A Go `uint64` is a natural number; every operation that can leave the range
  is followed by an explicit `% 2 ^ 64`.
* A Go `byte` is a `Fin 256`.
* A Go `map[uint64]uint64` is a function `Nat → Option Nat`; reading a key that
  is absent yields the zero value `0`, as in Go.
* The rolling-hash implementations, the byte-size formatter, the random source
  and the clock are external to `roll/main.go`; they are parameters of the
  model.
-/

namespace Roll

/-! ## Constants -/

/-- The Go constant `KiB`. -/
def KiB : Nat := 1024

/-- The Go constant `MiB`. -/
def MiB : Nat := 1024 * KiB

/-- The Go constant `GiB`. -/
def GiB : Nat := 1024 * MiB

/-- The modulus of `uint64` arithmetic. -/
def U64 : Nat := 2 ^ 64

/-- A Go `byte`. -/
abbrev Byte := Fin 256

/-! ## `genMasks` -/

/-- The local `ones := ^uint64(0)` of `genMasks`. -/
def ones : Nat := U64 - 1

/-- `genMasks`: a slice of 64 zeros is allocated, then entry `i` is overwritten
with `ones >> uint(63-i)` for `i = 0, ..., 63`. -/
def genMasks : List Nat :=
  (List.range 64).foldl (fun res i => res.set i (ones >>> (63 - i))) (List.replicate 64 0)

/-! ## `hash2uint64` -/

/-- `hash2uint64`: for each byte in order, `res <<= 8` (in `uint64`) and then
`res |= uint64(b)`; `res` starts at 0. -/
def hash2uint64 (s : List Byte) : Nat :=
  s.foldl (fun res b => ((res <<< 8) % U64) ||| b.val) 0

/-- The big-endian value of a byte sequence in the words of the specification:
the sum over `j < L` of `b[j] * 256 ^ (L - 1 - j)`, where `L` is the length. -/
def bigEndianSum (b : List Byte) : Nat :=
  ∑ j : Fin b.length, (b.get j).val * 256 ^ (b.length - 1 - j.val)

/-! ## The hit table -/

/-- A Go `map[uint64]uint64`: `none` is an absent key. -/
abbrev HitTable := Nat → Option Nat

namespace HitTable

/-- The map `make(map[uint64]uint64)`: no key is present. -/
def empty : HitTable := fun _ => none

/-- The Go read `hits[m]`: the zero value for an absent key. -/
def get (hits : HitTable) (m : Nat) : Nat := (hits m).getD 0

/-- The Go assignment `hits[m] = v`. -/
def set (hits : HitTable) (m v : Nat) : HitTable :=
  fun key => if key = m then some v else hits key

/-- The Go statement `hits[m] += 1` on `uint64` counters. -/
def incr (hits : HitTable) (m : Nat) : HitTable :=
  hits.set m ((hits.get m + 1) % U64)

end HitTable

/-- The statistics update of the driver loop for a hash value `s`:
`for _, m := range masks { if s&m == m { hits[m] += 1 } else { break } }`. -/
def updateHits (s : Nat) : List Nat → HitTable → HitTable
  | [], hits => hits
  | m :: ms, hits => if s &&& m = m then updateHits s ms (hits.incr m) else hits

/-- The statistics update with the `break` removed: every mask is tested. -/
def updateHitsNoBreak (s : Nat) : List Nat → HitTable → HitTable
  | [], hits => hits
  | m :: ms, hits =>
    if s &&& m = m then updateHitsNoBreak s ms (hits.incr m) else updateHitsNoBreak s ms hits

/-! ## External collaborators of `main` -/

/-- The part of the interface `rollinghash.Hash` that `main` uses. The
implementations live in the imported rolling-hash packages. -/
structure RollingHash where
  /-- The internal state of the hash. -/
  σ : Type
  /-- The state returned by the constructor `New()`. -/
  new : σ
  /-- The method `Write(p)`. -/
  write : σ → List Byte → σ
  /-- The method `Roll(b)`. -/
  roll : σ → Byte → σ
  /-- The method `Sum(b)`: the checksum bytes appended to `b`. -/
  sum : σ → List Byte → List Byte

/-- The four constructors `main` can call. -/
inductive Algorithm where
  | adler32
  | rabinkarp32
  | buzhash32
  | buzhash64
  deriving DecidableEq, Repr

/-- The command-line flags after `flag.Parse()`. -/
structure Flags where
  /-- The flag `-sum` (default `"adler32"`). -/
  rollsum : String
  /-- The flag `-stats` (default `false`). -/
  dostats : Bool
  /-- The flag `-size` (default `"256M"`). -/
  size : String

/-- Everything `main` obtains from outside `roll/main.go`. -/
structure World where
  /-- The function `bytefmt.ToBytes`; a successful result is a `uint64`. -/
  toBytes : String → Except String Nat
  /-- The function `bytefmt.ByteSize`. -/
  byteSize : Nat → String
  /-- The error of `os.Open("/dev/urandom")`, if any. -/
  openErr : Option String
  /-- The bytes the source can supply to the `j`-th call of `io.ReadFull`
  (`j = 0` is the pre-fill); fewer than the buffer size is a short read. -/
  source : Nat → List Byte
  /-- The rolling-hash packages. -/
  lib : Algorithm → RollingHash
  /-- The value `time.Since(t)`, an `int64` count of nanoseconds. -/
  elapsed : Int
  /-- The error of the deferred `f.Close()`, if any. -/
  closeErr : Option String

/-! ## Algorithm selection -/

/-- The usage string of the flag `-sum`. -/
def sumUsage : String := "adler32|rabinkarb32|buzhash32|buzhash64"

/-- The algorithm names listed in `sumUsage`. -/
def advertisedNames : List String := ["adler32", "rabinkarb32", "buzhash32", "buzhash64"]

/-- The case labels of the `switch *rollsum`. -/
def registeredNames : List String := ["adler32", "bozo32", "buzhash32", "buzhash64"]

/-- The `switch *rollsum` of `main`; the `default` branch is
`log.Fatalf("%s: unrecognized checksum", *rollsum)`. -/
def selectHash (rollsum : String) : Except String Algorithm :=
  if rollsum = "adler32" then .ok .adler32
  else if rollsum = "bozo32" then .ok .rabinkarp32
  else if rollsum = "buzhash32" then .ok .buzhash32
  else if rollsum = "buzhash64" then .ok .buzhash64
  else .error (rollsum ++ ": unrecognized checksum")

/-! ## The driver -/

/-- The local `bufsize := 1 * MiB`. -/
def bufsize : Nat := 1 * MiB

/-- The call `io.ReadFull(f, rbuf)` when the source supplies `data`: the new
buffer contents, the number of bytes copied and the error. Bytes past the
supplied ones keep their old value. `main` discards the count and the error. -/
def readFull (rbuf : Nat → Byte) (data : List Byte) : (Nat → Byte) × Nat × Option String :=
  (fun i => if i < bufsize then data.getD i (rbuf i) else rbuf i,
   min data.length bufsize,
   if bufsize ≤ data.length then none
   else if data.length = 0 then some "EOF" else some "unexpected EOF")

/-- One line of the full-table report: `"0x%016x (%02d bits): every %s\n"`. -/
structure Row where
  /-- The mask `m`. -/
  mask : Nat
  /-- The number `i+1` of bits required. -/
  bits : Nat
  /-- The string `frequency`. -/
  frequency : String
  deriving DecidableEq, Repr

/-- What `main` prints. -/
inductive Output where
  /-- The screen is cleared, the status line and one row per mask are printed. -/
  | table (status : String) (rows : List Row)
  /-- The line is cleared, the status line is printed, then a carriage return. -/
  | progress (status : String)
  /-- The final line `"Rolled %s of data in %v (%s/s).\n"`. -/
  | summary (total : String) (duration : Int) (rate : String)
  deriving DecidableEq, Repr

/-- The rows of the full-table report: for `i, m := range masks`, `frequency`
is `"NaN"`, replaced by `bytefmt.ByteSize(n / hits[m])` if `hits[m] != 0`. -/
def tableRows (W : World) (n : Nat) (hits : HitTable) : List Row :=
  genMasks.enum.map fun im =>
    { mask := im.2
      bits := im.1 + 1
      frequency := if hits.get im.2 ≠ 0 then W.byteSize (n / hits.get im.2) else "NaN" }

/-- The variables of the driver loop. The fields `reads` and `rolled` are
bookkeeping of the model: how many times `io.ReadFull` has been called, and
the bytes passed to `Roll` so far, oldest first. -/
structure State (σ : Type) where
  /-- The `uint64` variable `n`. -/
  n : Nat
  /-- The `int` variable `k`. -/
  k : Nat
  /-- The contents of `rbuf`, indexed below `bufsize`. -/
  rbuf : Nat → Byte
  /-- The state of the hash `roll`. -/
  roll : σ
  /-- The map `hits`. -/
  hits : HitTable
  /-- The number of calls of `io.ReadFull` made. -/
  reads : Nat
  /-- The text printed. -/
  out : List Output
  /-- The bytes passed to `Roll`. -/
  rolled : List Byte

/-- The `if k >= bufsize { ... }` block at the head of the loop body: the
periodic report, then the refill and `k = 0`. -/
def refill (W : World) (dostats : Bool) {σ : Type} (st : State σ) : State σ :=
  if bufsize ≤ st.k then
    let status := "Byte count: " ++ W.byteSize st.n
    { st with
      out := st.out ++
        [if dostats then Output.table status (tableRows W st.n st.hits)
         else Output.progress status]
      rbuf := (readFull st.rbuf (W.source st.reads)).1
      reads := st.reads + 1
      k := 0 }
  else st

/-- The rest of the loop body: `roll.Roll(rbuf[k])`, the statistics update if
`*dostats`, `k++` and `n++`. -/
def rollByte (dostats : Bool) (H : RollingHash) (st : State H.σ) : State H.σ :=
  let b := st.rbuf st.k
  let roll := H.roll st.roll b
  { st with
    roll := roll
    hits := if dostats then updateHits (hash2uint64 (H.sum roll [])) genMasks st.hits
            else st.hits
    k := st.k + 1
    n := (st.n + 1) % U64
    rolled := st.rolled ++ [b] }

/-- One iteration of the body of `for n < fileSize { ... }`. -/
def step (W : World) (dostats : Bool) (H : RollingHash) (st : State H.σ) : State H.σ :=
  rollByte dostats H (refill W dostats st)

/-- The loop `for n < fileSize { ... }` cut off after `fuel` iterations. -/
def runLoop (W : World) (dostats : Bool) (H : RollingHash) (fileSize : Nat) :
    Nat → State H.σ → State H.σ
  | 0, st => st
  | fuel + 1, st =>
    if st.n < fileSize then runLoop W dostats H fileSize fuel (step W dostats H st) else st

/-- The loop `for n < fileSize { ... }`: the state on exit, or `none` if the
loop has not exited within `fuel` iterations. -/
def loop (W : World) (dostats : Bool) (H : RollingHash) (fileSize fuel : Nat)
    (st : State H.σ) : Option (State H.σ) :=
  let st' := runLoop W dostats H fileSize fuel st
  if st'.n < fileSize then none else some st'

/-- The map `hits` after `for _, m := range masks { hits[m] = 0 }`. -/
def initHits : HitTable :=
  genMasks.foldl (fun hits m => hits.set m 0) HitTable.empty

/-- The state on entry to the driver loop: `rbuf` is allocated (all zero) and
pre-filled, the first 64 bytes of `rbuf` are written to the new hash, every
mask has hit count 0, `n` and `k` are 0. -/
def initState (W : World) (H : RollingHash) : State H.σ :=
  let rbuf := (readFull (fun _ => 0) (W.source 0)).1
  { n := 0
    k := 0
    rbuf := rbuf
    roll := H.write H.new ((List.range 64).map rbuf)
    hits := initHits
    reads := 1
    out := []
    rolled := [] }

/-- Go division of unsigned integers: a zero divisor is a run-time panic. -/
def goDiv (a b : Nat) : Option Nat :=
  if b = 0 then none else some (a / b)

/-- The conversion `uint64(d)` of an `int64`. -/
def toUint64 (d : Int) : Nat := (d % (U64 : Int)).toNat

/-- How the process ends. -/
inductive Status where
  /-- The function `main` returns. -/
  | ok
  /-- A call of `log.Fatal` or `log.Fatalf`. -/
  | fatal (msg : String)
  /-- A run-time panic. -/
  | panic (msg : String)
  deriving DecidableEq, Repr

/-- What a run of `main` has done when the process ends. -/
structure Outcome where
  /-- How the process ended. -/
  status : Status
  /-- The number of calls of `io.ReadFull` made. -/
  reads : Nat
  /-- The bytes passed to `Roll`, oldest first. -/
  rolled : List Byte
  /-- The map `hits` (empty if it was never created). -/
  hits : HitTable
  /-- The text printed. -/
  out : List Output

/-- The function `main` after `flag.Parse()`. The result is `none` if the
driver loop has not exited within `fuel` iterations. -/
def main (W : World) (F : Flags) (fuel : Nat) : Option Outcome :=
  match W.toBytes F.size with
  | .error e => some ⟨.fatal e, 0, [], HitTable.empty, []⟩
  | .ok fileSize =>
    match W.openErr with
    | some e => some ⟨.fatal e, 0, [], HitTable.empty, []⟩
    | none =>
      match selectHash F.rollsum with
      | .error msg => some ⟨.fatal msg, 1, [], HitTable.empty, []⟩
      | .ok algo =>
        match loop W F.dostats (W.lib algo) fileSize fuel (initState W (W.lib algo)) with
        | none => none
        | some st =>
          match goDiv ((st.n * 1000000000) % U64) (toUint64 W.elapsed) with
          | none =>
            some ⟨(W.closeErr.map Status.fatal).getD (.panic "integer divide by zero"),
              st.reads, st.rolled, st.hits, st.out⟩
          | some rate =>
            some ⟨(W.closeErr.map Status.fatal).getD .ok, st.reads, st.rolled, st.hits,
              st.out ++ [.summary (W.byteSize st.n) W.elapsed (W.byteSize rate)]⟩

/-! ## A small concrete world

A one-byte additive checksum over a sliding window, used to run the model on
concrete inputs. -/

/-- A rolling hash whose checksum is the sum of the window bytes modulo 256. -/
def sum8 : RollingHash where
  σ := List Byte
  new := []
  write := fun w p => w ++ p
  roll := fun w b => w.drop 1 ++ [b]
  sum := fun w buf => buf ++ [w.foldl (fun acc b => acc + b) 0]

/-- A world in which every size string denotes `fileSize` bytes, the source
supplies `data` to every read, and the clock measures `elapsed` nanoseconds. -/
def demoWorld (fileSize : Nat) (data : List Byte) (elapsed : Int) : World where
  toBytes := fun _ => .ok fileSize
  byteSize := fun v => toString v
  openErr := none
  source := fun _ => data
  lib := fun _ => sum8
  elapsed := elapsed
  closeErr := none

/-! ## The loop invariant -/

/-- The invariant of the driver loop for target size `fileSize`, at the head of
the loop: `n` has not passed the target and counts the bytes rolled, `k` is at
most the buffer size, no counter exceeds `n`, and the counter of a mask is at
least the counter of every stricter mask. -/
structure Inv (fileSize : Nat) {σ : Type} (st : State σ) : Prop where
  /-- The count `n` is at most the target. -/
  n_le : st.n ≤ fileSize
  /-- The count `n` is the number of calls of `Roll`. -/
  rolled_length : st.rolled.length = st.n
  /-- The offset `k` is at most the buffer size. -/
  k_le : st.k ≤ bufsize
  /-- No counter exceeds `n`. -/
  hits_le : ∀ m, st.hits.get m ≤ st.n
  /-- Counters do not increase with strictness. -/
  hits_anti : ∀ i j, i ≤ j → j < 64 →
    st.hits.get (2 ^ (j + 1) - 1) ≤ st.hits.get (2 ^ (i + 1) - 1)

/-! ## The final report, the periodic report and the buffers -/

/-- The throughput expression `n*1e9/uint64(duration)` of the final `Printf`:
the product is a `uint64` product, and `none` is the divide-by-zero panic. -/
def throughput (n : Nat) (duration : Int) : Option Nat :=
  goDiv ((n * 1000000000) % U64) (toUint64 duration)

/-- The throughput in the words of the specification: the exact integer
quotient of `n * 10 ^ 9` by the elapsed nanoseconds `d`. -/
def exactRate (n d : Nat) : Nat := n * 10 ^ 9 / d

/-- Whether a printed item is a full-table report. -/
def Output.isTable : Output → Bool
  | .table _ _ => true
  | _ => false

/-- The computation of `frequency` for one mask in the periodic report, with
the Go division explicit: `none` is a divide-by-zero panic. -/
def frequencyChecked (W : World) (n : Nat) (hits : HitTable) (m : Nat) : Option String :=
  if hits.get m ≠ 0 then (goDiv n (hits.get m)).map W.byteSize else some "NaN"

/-- The loop `for i, m := range masks` of the periodic report over the indexed
masks `ims`, with the Go division explicit: `none` is a divide-by-zero panic. -/
def rowsChecked (W : World) (n : Nat) (hits : HitTable) : List (Nat × Nat) → Option (List Row)
  | [] => some []
  | im :: ims =>
    match frequencyChecked W n hits im.2 with
    | none => none
    | some f =>
      (rowsChecked W n hits ims).map fun rows =>
        { mask := im.2, bits := im.1 + 1, frequency := f } :: rows

/-- The rows of the full-table report with the Go division explicit. -/
def tableRowsChecked (W : World) (n : Nat) (hits : HitTable) : Option (List Row) :=
  rowsChecked W n hits genMasks.enum

/-- The contents of `rbuf` after the `j`-th call of `io.ReadFull` (`j = 0` is
the pre-fill of the zeroed buffer). -/
def bufferAt (W : World) : Nat → Nat → Byte
  | 0 => (readFull (fun _ => 0) (W.source 0)).1
  | j + 1 => (readFull (bufferAt W j) (W.source (j + 1))).1

/-- The invariant of the driver loop that ties the offset `k`, the buffer and
the output to `n`: `n` is the bytes of the buffers used up plus the offset in
the current one, one report has been printed per refill, and the bytes rolled
are the buffers read in order. -/
structure BufInv (W : World) {σ : Type} (st : State σ) : Prop where
  /-- The pre-fill has happened. -/
  reads_pos : 1 ≤ st.reads
  /-- The position in the stream. -/
  n_eq : st.n = bufsize * (st.reads - 1) + st.k
  /-- The offset `k` is at most the buffer size. -/
  k_le : st.k ≤ bufsize
  /-- The offset is 0 only before the first byte. -/
  k_pos : 0 < st.n → 0 < st.k
  /-- The buffer is the one read last. -/
  rbuf_eq : st.rbuf = bufferAt W (st.reads - 1)
  /-- One report per refill inside the loop. -/
  out_length : st.out.length + 1 = st.reads
  /-- The bytes rolled, in terms of the buffers. -/
  rolled_eq : st.rolled =
    (List.range st.n).map (fun i => bufferAt W (i / bufsize) (i % bufsize))

/-! ## The rolling hashes

The packages `adler32`, `rabinkarp32`, `buzhash32` and `buzhash64` are called
by `roll/main.go` but their code is not part of it. The definitions of this
section model them from the specification: a window of fixed size, an
accumulator, an initialization from a whole window and an update per byte
that does not rescan the window. -/

/-- The modulus of `uint32` arithmetic. -/
def U32 : Nat := 2 ^ 32

/-- The size of the window `rbuf[:64]` that `main` writes to the hash. -/
def windowSize : Nat := 64

/-- Modelled from the spec: the rolling-hash capability of the hash packages,
with the operations `init` (the `initialize(window)` of the specification,
which fails on a window of the wrong size), `roll(next_byte)` and `value()`. -/
structure SpecHash where
  /-- The window and the accumulator. -/
  σ : Type
  /-- The operation `initialize(window)`. -/
  init : List Byte → Except String σ
  /-- The operation `roll(next_byte)`. -/
  roll : σ → Byte → σ
  /-- The operation `value()`. -/
  value : σ → Nat

/-- Modelled from the spec: the modulus of the Adler-32-style running sums of
the package `adler32`, the largest prime below `2 ^ 16`. -/
def adlerMod : Nat := 65521

/-- Modelled from the spec: the Adler-32-style pair of the package `adler32`
computed from scratch over a window, the running sum `a` (starting at 1) and
the sum `b` of the running sums, both modulo `adlerMod`. -/
def adlerSums (w : List Byte) : Nat × Nat :=
  w.foldl
    (fun ab x => ((ab.1 + x.val) % adlerMod, (ab.2 + (ab.1 + x.val) % adlerMod) % adlerMod))
    (1, 0)

/-- Modelled from the spec: the update of the Adler-32-style pair of the
package `adler32` for a window of `n` bytes when the byte `leave` is retired
and the byte `enter` is admitted, without rescanning the window. -/
def adlerRoll (n : Nat) (ab : Nat × Nat) (leave enter : Byte) : Nat × Nat :=
  ((ab.1 + adlerMod + enter.val - leave.val) % adlerMod,
   (ab.2 + (n * leave.val / adlerMod + 1) * adlerMod
      + (ab.1 + adlerMod + enter.val - leave.val) % adlerMod - n * leave.val - 1) % adlerMod)

/-- Modelled from the spec: the Adler-32-style variant of the rolling hash
(package `adler32`); the value is the 32-bit number with `b` in the high and
`a` in the low 16 bits. -/
def adlerHash : SpecHash where
  σ := List Byte × (Nat × Nat)
  init := fun w =>
    if w.length = windowSize then .ok (w, adlerSums w) else .error "InvalidWindowSize"
  roll := fun s c => (s.1.drop 1 ++ [c], adlerRoll s.1.length s.2 (s.1.headD 0) c)
  value := fun s => (s.2.2 <<< 16) ||| s.2.1

/-- Modelled from the spec: the Rabin-Karp-32-style sum of the package
`rabinkarp32` computed from scratch over a window, a polynomial in the
multiplier `p` with the bytes as coefficients, in `uint32` arithmetic. -/
def polySum (p : Nat) (w : List Byte) : Nat :=
  w.foldl (fun h x => (h * p + x.val) % U32) 0

/-- Modelled from the spec: the update of the Rabin-Karp-32-style sum of the
package `rabinkarp32` for a window of `n` bytes, `h*p + enter - p^n*leave` in
`uint32` arithmetic. -/
def polyRoll (p n h : Nat) (leave enter : Byte) : Nat :=
  (h * p + enter.val + (U32 - (p ^ n * leave.val) % U32)) % U32

/-- Modelled from the spec: the Rabin-Karp-32-style variant of the rolling
hash (package `rabinkarp32`) with multiplier `p`. -/
def polyHash (p : Nat) : SpecHash where
  σ := List Byte × Nat
  init := fun w =>
    if w.length = windowSize then .ok (w, polySum p w) else .error "InvalidWindowSize"
  roll := fun s c => (s.1.drop 1 ++ [c], polyRoll p s.1.length s.2 (s.1.headD 0) c)
  value := fun s => s.2

/-- Modelled from the spec: the rotation to the left by `r` bits of a word of
`W` bits, used by the rotate/XOR hashes of the packages `buzhash32` and
`buzhash64`. -/
def rotl (W r x : Nat) : Nat := ((x <<< r) ||| (x >>> (W - r))) % 2 ^ W

/-- Modelled from the spec: the rotate/XOR sum of the packages `buzhash32` and
`buzhash64` computed from scratch over a window, for words of `W` bits and a
table `T` keyed by byte value: rotate by one bit, then XOR the table entry. -/
def buzSum (W : Nat) (T : Byte → Nat) (w : List Byte) : Nat :=
  w.foldl (fun h x => rotl W 1 h ^^^ (T x % 2 ^ W)) 0

/-- Modelled from the spec: the update of the rotate/XOR sum of the packages
`buzhash32` and `buzhash64` for a window of `n` bytes: rotate by one bit, XOR
out the table entry of the retired byte rotated by `n`, XOR in the table entry
of the admitted byte. -/
def buzRoll (W : Nat) (T : Byte → Nat) (n h : Nat) (leave enter : Byte) : Nat :=
  rotl W 1 h ^^^ rotl W (n % W) (T leave % 2 ^ W) ^^^ (T enter % 2 ^ W)

/-- Modelled from the spec: the rotate/XOR variant of the rolling hash
(packages `buzhash32` for `W = 32` and `buzhash64` for `W = 64`) with the
byte table `T`. -/
def buzHash (W : Nat) (T : Byte → Nat) : SpecHash where
  σ := List Byte × Nat
  init := fun w =>
    if w.length = windowSize then .ok (w, buzSum W T w) else .error "InvalidWindowSize"
  roll := fun s c => (s.1.drop 1 ++ [c], buzRoll W T s.1.length s.2 (s.1.headD 0) c)
  value := fun s => s.2

/-- Modelled from the spec: the closed set of rolling-hash variants, one per
selectable algorithm, for a multiplier `p` and byte tables `T32` and `T64`. -/
def specHash (p : Nat) (T32 T64 : Byte → Nat) : Algorithm → SpecHash
  | .adler32 => adlerHash
  | .rabinkarp32 => polyHash p
  | .buzhash32 => buzHash 32 T32
  | .buzhash64 => buzHash 64 T64

/-- The sum of the bytes of a window. -/
def byteSum (w : List Byte) : Nat := (w.map Fin.val).sum

/-- The sum of the bytes of a window, each weighted by its distance to the
end of the window (the last byte has weight 1). -/
def weightedSum : List Byte → Nat
  | [] => 0
  | x :: xs => (xs.length + 1) * x.val + weightedSum xs

/-- The value of the polynomial with the bytes as coefficients, continued from
`h0`, without reduction. -/
def horner (p : Nat) (h0 : Nat) (w : List Byte) : Nat :=
  w.foldl (fun h x => h * p + x.val) h0

/-- The rotate/XOR sum continued from the word `h0`. -/
def buzFold (W : Nat) (T : Byte → Nat) (h0 : Nat) (w : List Byte) : Nat :=
  w.foldl (fun h x => rotl W 1 h ^^^ (T x % 2 ^ W)) h0

/-! ## Facts about the mask table -/

theorem genMasks_eq_map : genMasks = (List.range 64).map (fun i => 2 ^ (i + 1) - 1) := by
  decide

theorem genMasks_length : genMasks.length = 64 := by
  rw [genMasks_eq_map]; simp

theorem genMasks_getElem? (i : Nat) (hi : i < 64) : genMasks[i]? = some (2 ^ (i + 1) - 1) := by
  rw [genMasks_eq_map]
  simp [List.getElem?_map, List.getElem?_range hi]

theorem mem_genMasks_iff (m : Nat) : m ∈ genMasks ↔ ∃ i, i < 64 ∧ m = 2 ^ (i + 1) - 1 := by
  rw [genMasks_eq_map]
  simp only [List.mem_map, List.mem_range]
  constructor
  · rintro ⟨i, hi, rfl⟩; exact ⟨i, hi, rfl⟩
  · rintro ⟨i, hi, rfl⟩; exact ⟨i, hi, rfl⟩

theorem low_mask_lt {i j : Nat} (h : i < j) : 2 ^ (i + 1) - 1 < 2 ^ (j + 1) - 1 := by
  have h1 : 2 ^ (i + 1) < 2 ^ (j + 1) := Nat.pow_lt_pow_right (by norm_num) (by omega)
  have h2 : 0 < 2 ^ (i + 1) := Nat.two_pow_pos _
  omega

theorem low_mask_injective {i j : Nat} (h : 2 ^ (i + 1) - 1 = 2 ^ (j + 1) - 1) : i = j := by
  rcases Nat.lt_trichotomy i j with hlt | heq | hgt
  · exact absurd h (Nat.ne_of_lt (low_mask_lt hlt))
  · exact heq
  · exact absurd h.symm (Nat.ne_of_lt (low_mask_lt hgt))

/-- A mask with fewer low bits is a bit-pattern subset of one with more. -/
theorem low_mask_and {i j : Nat} (h : i ≤ j) :
    (2 ^ (i + 1) - 1) &&& (2 ^ (j + 1) - 1) = 2 ^ (i + 1) - 1 := by
  apply Nat.and_pow_two_sub_one_of_lt_two_pow
  have h1 : 2 ^ (i + 1) ≤ 2 ^ (j + 1) := Nat.pow_le_pow_right (by norm_num) (by omega)
  have h2 : 0 < 2 ^ (i + 1) := Nat.two_pow_pos _
  omega

/-- A value that passes the mask with `j + 1` low bits passes every mask with
fewer low bits. -/
theorem pass_of_pass_stricter {s i j : Nat} (h : i ≤ j)
    (hj : s &&& (2 ^ (j + 1) - 1) = 2 ^ (j + 1) - 1) :
    s &&& (2 ^ (i + 1) - 1) = 2 ^ (i + 1) - 1 := by
  calc s &&& (2 ^ (i + 1) - 1)
      = s &&& ((2 ^ (j + 1) - 1) &&& (2 ^ (i + 1) - 1)) := by
        rw [Nat.land_comm (2 ^ (j + 1) - 1), low_mask_and h]
    _ = (s &&& (2 ^ (j + 1) - 1)) &&& (2 ^ (i + 1) - 1) := by rw [Nat.land_assoc]
    _ = (2 ^ (j + 1) - 1) &&& (2 ^ (i + 1) - 1) := by rw [hj]
    _ = 2 ^ (i + 1) - 1 := by rw [Nat.land_comm, low_mask_and h]

theorem genMasks_nodup : genMasks.Nodup := by
  rw [genMasks_eq_map]
  refine List.Nodup.map_on ?_ (List.nodup_range 64)
  intro i _ j _ h
  exact low_mask_injective h

/-- In table order, a value that fails a mask fails every later mask. -/
theorem genMasks_pairwise_nested (s : Nat) :
    genMasks.Pairwise (fun a b => s &&& a ≠ a → s &&& b ≠ b) := by
  rw [genMasks_eq_map, List.pairwise_map]
  refine List.Pairwise.imp ?_ (List.pairwise_lt_range 64)
  intro i j hij hfail hpass
  exact hfail (pass_of_pass_stricter (Nat.le_of_lt hij) hpass)

/-! ## Facts about the statistics update -/

theorem HitTable.get_incr_self (hits : HitTable) (m : Nat) :
    (hits.incr m).get m = (hits.get m + 1) % U64 := by
  simp [HitTable.incr, HitTable.set, HitTable.get]

theorem HitTable.get_incr_of_ne (hits : HitTable) {m key : Nat} (h : key ≠ m) :
    (hits.incr m).get key = hits.get key := by
  simp [HitTable.incr, HitTable.set, HitTable.get, h]

theorem HitTable.incr_of_ne (hits : HitTable) {m key : Nat} (h : key ≠ m) :
    (hits.incr m) key = hits key := by
  simp [HitTable.incr, HitTable.set, h]

theorem HitTable.incr_self (hits : HitTable) (m : Nat) :
    (hits.incr m) m = some ((hits.get m + 1) % U64) := by
  simp [HitTable.incr, HitTable.set]

theorem updateHitsNoBreak_of_all_fail (s : Nat) (ms : List Nat) (hits : HitTable)
    (h : ∀ m ∈ ms, s &&& m ≠ m) : updateHitsNoBreak s ms hits = hits := by
  induction ms with
  | nil => rfl
  | cons m ms ih =>
    have hm : s &&& m ≠ m := h m (List.mem_cons_self m ms)
    simp only [updateHitsNoBreak, if_neg hm]
    exact ih (fun x hx => h x (List.mem_cons_of_mem m hx))

theorem updateHits_eq_noBreak_of_pairwise (s : Nat) (ms : List Nat) (hits : HitTable)
    (h : ms.Pairwise (fun a b => s &&& a ≠ a → s &&& b ≠ b)) :
    updateHits s ms hits = updateHitsNoBreak s ms hits := by
  induction ms generalizing hits with
  | nil => rfl
  | cons m ms ih =>
    rw [List.pairwise_cons] at h
    by_cases hm : s &&& m = m
    · simp only [updateHits, updateHitsNoBreak, if_pos hm]
      exact ih _ h.2
    · simp only [updateHits, updateHitsNoBreak, if_neg hm]
      exact (updateHitsNoBreak_of_all_fail s ms hits (fun x hx => h.1 x hx hm)).symm

theorem updateHitsNoBreak_apply (s : Nat) (ms : List Nat) (hits : HitTable) (hnd : ms.Nodup)
    (key : Nat) :
    updateHitsNoBreak s ms hits key =
      if key ∈ ms ∧ s &&& key = key then some ((hits.get key + 1) % U64) else hits key := by
  induction ms generalizing hits with
  | nil => simp [updateHitsNoBreak]
  | cons m ms ih =>
    rw [List.nodup_cons] at hnd
    by_cases hm : s &&& m = m
    · simp only [updateHitsNoBreak, if_pos hm]
      rw [ih _ hnd.2]
      by_cases hk : key = m
      · subst hk
        simp [hnd.1, hm, HitTable.incr_self]
      · simp [hk, HitTable.get_incr_of_ne, HitTable.incr_of_ne]
    · simp only [updateHitsNoBreak, if_neg hm]
      rw [ih _ hnd.2]
      by_cases hk : key = m
      · subst hk
        simp [hnd.1, hm]
      · simp [hk]

theorem updateHits_genMasks_apply (s : Nat) (hits : HitTable) (key : Nat) :
    updateHits s genMasks hits key =
      if key ∈ genMasks ∧ s &&& key = key then some ((hits.get key + 1) % U64) else hits key := by
  rw [updateHits_eq_noBreak_of_pairwise s genMasks hits (genMasks_pairwise_nested s)]
  exact updateHitsNoBreak_apply s genMasks hits genMasks_nodup key

/-! ## Facts about `hash2uint64` -/

theorem hash2uint64_append_singleton (s : List Byte) (b : Byte) :
    hash2uint64 (s ++ [b]) = ((hash2uint64 s <<< 8) % U64) ||| b.val := by
  simp [hash2uint64, List.foldl_append]

theorem bigEndianSum_eq_range (s : List Byte) :
    bigEndianSum s =
      ∑ j in Finset.range s.length, (s.getD j 0).val * 256 ^ (s.length - 1 - j) := by
  rw [Finset.sum_range]
  unfold bigEndianSum
  refine Finset.sum_congr rfl ?_
  intro j _
  simp [List.getD_eq_getElem]

theorem bigEndianSum_append_singleton (s : List Byte) (b : Byte) :
    bigEndianSum (s ++ [b]) = 256 * bigEndianSum s + b.val := by
  rw [bigEndianSum_eq_range, bigEndianSum_eq_range]
  simp only [List.length_append, List.length_singleton]
  rw [Finset.sum_range_succ, Finset.mul_sum]
  congr 1
  · refine Finset.sum_congr rfl ?_
    intro j hj
    rw [Finset.mem_range] at hj
    have h1 : (s ++ [b]).getD j 0 = s.getD j 0 := by
      simp [List.getD_eq_getElem?_getD, List.getElem?_append_left hj]
    have h2 : s.length + 1 - 1 - j = (s.length - 1 - j) + 1 := by omega
    rw [h1, h2, pow_succ]
    ring
  · simp [List.getD_eq_getElem?_getD]

/-- One step of the packing loop: shifting a `uint64` left by a byte and
or-ing a byte in is multiplication by 256 and addition, modulo `2 ^ 64`. -/
theorem shift_or_byte (x : Nat) (b : Byte) :
    ((x <<< 8) % U64) ||| b.val = (256 * x + b.val) % U64 := by
  have hb : b.val < 2 ^ 8 := b.isLt
  have hdiv : (x <<< 8) % U64 = 2 ^ 8 * ((x <<< 8) % U64 / 2 ^ 8) := by
    rw [Nat.shiftLeft_eq]
    norm_num [U64]
    omega
  rw [hdiv, ← Nat.mul_add_lt_is_or hb, ← hdiv, Nat.shiftLeft_eq]
  norm_num [U64] at hb ⊢
  omega

theorem hash2uint64_eq_mod (s : List Byte) : hash2uint64 s = bigEndianSum s % U64 := by
  induction s using List.reverseRecOn with
  | nil => simp [hash2uint64, bigEndianSum]
  | append_singleton s b ih =>
    rw [hash2uint64_append_singleton, bigEndianSum_append_singleton, shift_or_byte, ih]
    norm_num [U64]
    omega

theorem bigEndianSum_lt (s : List Byte) : bigEndianSum s < 256 ^ s.length := by
  induction s using List.reverseRecOn with
  | nil => simp [bigEndianSum]
  | append_singleton s b ih =>
    rw [bigEndianSum_append_singleton, List.length_append, List.length_singleton, pow_succ]
    have hb : b.val < 256 := b.isLt
    omega

/-! ## The mask table and the statistics update: main results -/

/-- C1. `genMasks` returns exactly 64 values; for every index `i < 64` the
entry at `i` is `2 ^ (i + 1) - 1`, a `uint64` whose bit `b` is set exactly when
`b < i + 1`; the last entry is `2 ^ 64 - 1`. -/
theorem genMasks_spec :
    genMasks.length = 64 ∧
    (∀ i, i < 64 →
      genMasks[i]? = some (2 ^ (i + 1) - 1) ∧ 2 ^ (i + 1) - 1 < U64 ∧
      ∀ b, (2 ^ (i + 1) - 1).testBit b = decide (b < i + 1)) ∧
    genMasks[63]? = some (2 ^ 64 - 1) := by
  refine ⟨genMasks_length, ?_, genMasks_getElem? 63 (by norm_num)⟩
  intro i hi
  refine ⟨genMasks_getElem? i hi, ?_, fun b => Nat.testBit_two_pow_sub_one (i + 1) b⟩
  have h1 : 2 ^ (i + 1) ≤ 2 ^ 64 := Nat.pow_le_pow_right (by norm_num) (by omega)
  have h2 : 0 < 2 ^ (i + 1) := Nat.two_pow_pos _
  unfold U64
  omega

/-- Entry 5 of `genMasks` is 63, a value below `2 ^ 64` whose low six bits are
set. -/
theorem genMasks_spec_witness :
    genMasks[5]? = some 63 ∧ 63 < U64 ∧ ∀ b, (63).testBit b = decide (b < 6) :=
  (genMasks_spec).2.1 5 (by decide)

/-- C2. For every value `s` and indices `i < j < 64` into `genMasks`: if `s`
fails the mask at `i` then `s` fails the mask at `j`. -/
theorem genMasks_fail_nested (s i j mi mj : Nat) (hij : i < j) (hj : j < 64)
    (hmi : genMasks[i]? = some mi) (hmj : genMasks[j]? = some mj)
    (hfail : s &&& mi ≠ mi) : s &&& mj ≠ mj := by
  rw [genMasks_getElem? i (by omega)] at hmi
  rw [genMasks_getElem? j hj] at hmj
  cases hmi
  cases hmj
  intro hpass
  exact hfail (pass_of_pass_stricter (Nat.le_of_lt hij) hpass)

/-- The value 5 fails the 2-bit mask 3, hence fails the 4-bit mask 15. -/
theorem genMasks_fail_nested_witness : 5 &&& 15 ≠ 15 :=
  genMasks_fail_nested 5 1 3 3 15 (by decide) (by decide) (by decide) (by decide) (by decide)

/-- C3. For every hash value `s` and every hit table, the statistics update
with the `break` yields the same hit table as the update without it, and that
table has the counter of every mask `m` of `genMasks` with `s & m == m`
incremented by one as a `uint64` (exactly one higher unless the counter was
`2 ^ 64 - 1`) and every other entry unchanged. -/
theorem updateHits_break_irrelevant (s : Nat) (hits : HitTable) :
    updateHits s genMasks hits = updateHitsNoBreak s genMasks hits ∧
    (∀ key, updateHits s genMasks hits key =
      if key ∈ genMasks ∧ s &&& key = key then some ((hits.get key + 1) % U64)
      else hits key) ∧
    (∀ key, key ∈ genMasks → s &&& key = key → hits.get key + 1 < U64 →
      (updateHits s genMasks hits).get key = hits.get key + 1) := by
  refine ⟨updateHits_eq_noBreak_of_pairwise s genMasks hits (genMasks_pairwise_nested s),
    updateHits_genMasks_apply s hits, ?_⟩
  intro key hmem hpass hlt
  unfold HitTable.get at hlt ⊢
  rw [updateHits_genMasks_apply, if_pos ⟨hmem, hpass⟩]
  exact Nat.mod_eq_of_lt hlt

/-- On the empty table the hash value 3 brings the count of the 2-bit mask 3
from 0 to 1. -/
theorem updateHits_break_irrelevant_witness :
    (updateHits 3 genMasks HitTable.empty).get 3 = HitTable.empty.get 3 + 1 :=
  (updateHits_break_irrelevant 3 HitTable.empty).2.2 3 (by decide) (by decide) (by decide)

/-- C4. `hash2uint64` is big-endian packing: the result is the big-endian sum
modulo `2 ^ 64`; for at most 8 bytes it is the sum itself and is below
`2 ^ (8 * L)`, where `L` is the number of bytes. -/
theorem hash2uint64_bigEndian (b : List Byte) :
    hash2uint64 b = bigEndianSum b % 2 ^ 64 ∧
    (b.length ≤ 8 → hash2uint64 b = bigEndianSum b ∧ hash2uint64 b < 2 ^ (8 * b.length)) := by
  have hmod : hash2uint64 b = bigEndianSum b % 2 ^ 64 := hash2uint64_eq_mod b
  refine ⟨hmod, fun hlen => ?_⟩
  have hlt : bigEndianSum b < 2 ^ (8 * b.length) := by
    have := bigEndianSum_lt b
    rwa [show (256 : Nat) = 2 ^ 8 by norm_num, ← pow_mul] at this
  have hle : 2 ^ (8 * b.length) ≤ 2 ^ 64 := Nat.pow_le_pow_right (by norm_num) (by omega)
  have heq : hash2uint64 b = bigEndianSum b := by
    rw [hmod]
    exact Nat.mod_eq_of_lt (Nat.lt_of_lt_of_le hlt hle)
  exact ⟨heq, by rw [heq]; exact hlt⟩

/-- The four bytes `1, 2, 3, 4` pack to `0x01020304`, which is below `2 ^ 32`. -/
theorem hash2uint64_bigEndian_witness :
    hash2uint64 [1, 2, 3, 4] = bigEndianSum [1, 2, 3, 4] ∧
    hash2uint64 [1, 2, 3, 4] < 2 ^ (8 * 4) :=
  (hash2uint64_bigEndian [1, 2, 3, 4]).2 (by decide)

/-! ## Facts about the driver loop -/

theorem HitTable.get_set_zero (hits : HitTable) (m key : Nat) (h : hits.get key = 0) :
    (hits.set m 0).get key = 0 := by
  unfold HitTable.set HitTable.get
  by_cases hk : key = m
  · simp [hk]
  · simpa [hk, HitTable.get] using h

theorem foldl_set_zero_get (ms : List Nat) (hits : HitTable) (key : Nat)
    (h : hits.get key = 0) :
    (ms.foldl (fun hits m => hits.set m 0) hits).get key = 0 := by
  induction ms generalizing hits with
  | nil => exact h
  | cons m ms ih => exact ih _ (HitTable.get_set_zero hits m key h)

theorem initHits_get (key : Nat) : initHits.get key = 0 :=
  foldl_set_zero_get genMasks HitTable.empty key rfl

theorem updateHits_genMasks_get (s : Nat) (hits : HitTable) (key : Nat) :
    (updateHits s genMasks hits).get key =
      if key ∈ genMasks ∧ s &&& key = key then (hits.get key + 1) % U64 else hits.get key := by
  unfold HitTable.get
  rw [updateHits_genMasks_apply]
  split <;> rfl

theorem low_mask_mem_genMasks {i : Nat} (hi : i < 64) : 2 ^ (i + 1) - 1 ∈ genMasks :=
  (mem_genMasks_iff _).2 ⟨i, hi, rfl⟩

/-- The statistics update raises no counter by more than one. -/
theorem updateHits_get_le (s : Nat) (hits : HitTable) (key : Nat) :
    (updateHits s genMasks hits).get key ≤ hits.get key + 1 := by
  rw [updateHits_genMasks_get]
  split
  · exact Nat.mod_le _ _
  · exact Nat.le_succ _

/-- The statistics update lowers no counter that is below `2 ^ 64 - 1`. -/
theorem updateHits_get_ge (s : Nat) (hits : HitTable) (key : Nat)
    (h : hits.get key + 1 < U64) :
    hits.get key ≤ (updateHits s genMasks hits).get key := by
  rw [updateHits_genMasks_get]
  split
  · rw [Nat.mod_eq_of_lt h]; exact Nat.le_succ _
  · exact Nat.le_refl _

/-- The statistics update keeps the counters ordered by strictness, as long
as no counter wraps around. -/
theorem updateHits_anti (s : Nat) (hits : HitTable) (i j : Nat) (hij : i ≤ j) (hj : j < 64)
    (hwrap : hits.get (2 ^ (i + 1) - 1) + 1 < U64)
    (h : hits.get (2 ^ (j + 1) - 1) ≤ hits.get (2 ^ (i + 1) - 1)) :
    (updateHits s genMasks hits).get (2 ^ (j + 1) - 1) ≤
      (updateHits s genMasks hits).get (2 ^ (i + 1) - 1) := by
  by_cases hpass : s &&& (2 ^ (j + 1) - 1) = 2 ^ (j + 1) - 1
  · have hpassi := pass_of_pass_stricter hij hpass
    rw [updateHits_genMasks_get, updateHits_genMasks_get,
      if_pos ⟨low_mask_mem_genMasks hj, hpass⟩,
      if_pos ⟨low_mask_mem_genMasks (Nat.lt_of_le_of_lt hij hj), hpassi⟩,
      Nat.mod_eq_of_lt hwrap]
    exact Nat.le_trans (Nat.mod_le _ _) (Nat.succ_le_succ h)
  · have hj' : (updateHits s genMasks hits).get (2 ^ (j + 1) - 1) =
        hits.get (2 ^ (j + 1) - 1) := by
      rw [updateHits_genMasks_get, if_neg (fun hc => hpass hc.2)]
    rw [hj']
    exact Nat.le_trans h (updateHits_get_ge s hits _ hwrap)

theorem refill_n (W : World) (dostats : Bool) {σ : Type} (st : State σ) :
    (refill W dostats st).n = st.n := by
  unfold refill; split <;> rfl

theorem refill_hits (W : World) (dostats : Bool) {σ : Type} (st : State σ) :
    (refill W dostats st).hits = st.hits := by
  unfold refill; split <;> rfl

theorem refill_rolled (W : World) (dostats : Bool) {σ : Type} (st : State σ) :
    (refill W dostats st).rolled = st.rolled := by
  unfold refill; split <;> rfl

theorem refill_roll (W : World) (dostats : Bool) {σ : Type} (st : State σ) :
    (refill W dostats st).roll = st.roll := by
  unfold refill; split <;> rfl

/-- After the refill block the offset `k` indexes into the buffer. -/
theorem refill_k_lt (W : World) (dostats : Bool) {σ : Type} (st : State σ) :
    (refill W dostats st).k < bufsize := by
  unfold refill
  split
  · show 0 < bufsize
    decide
  · omega

theorem step_n (W : World) (dostats : Bool) (H : RollingHash) (st : State H.σ) :
    (step W dostats H st).n = (st.n + 1) % U64 := by
  show ((refill W dostats st).n + 1) % U64 = _
  rw [refill_n]

theorem step_rolled (W : World) (dostats : Bool) (H : RollingHash) (st : State H.σ) :
    (step W dostats H st).rolled =
      st.rolled ++ [(refill W dostats st).rbuf (refill W dostats st).k] := by
  show (refill W dostats st).rolled ++ _ = _
  rw [refill_rolled]

theorem step_k (W : World) (dostats : Bool) (H : RollingHash) (st : State H.σ) :
    (step W dostats H st).k = (refill W dostats st).k + 1 := rfl

theorem step_hits (W : World) (dostats : Bool) (H : RollingHash) (st : State H.σ) :
    (step W dostats H st).hits =
      if dostats then
        updateHits (hash2uint64 (H.sum (H.roll st.roll
          ((refill W dostats st).rbuf (refill W dostats st).k)) [])) genMasks st.hits
      else st.hits := by
  show (if dostats then updateHits _ genMasks (refill W dostats st).hits
    else (refill W dostats st).hits) = _
  rw [refill_hits, refill_roll]

/-- The loop body preserves the invariant when the loop condition holds. -/
theorem step_inv (W : World) (dostats : Bool) (H : RollingHash) (fileSize : Nat)
    (hfs : fileSize < U64) (st : State H.σ) (hinv : Inv fileSize st) (hn : st.n < fileSize) :
    Inv fileSize (step W dostats H st) := by
  have hn1 : (st.n + 1) % U64 = st.n + 1 := Nat.mod_eq_of_lt (by omega)
  have hwrap : ∀ m, st.hits.get m + 1 < U64 := fun m => by
    have := hinv.hits_le m
    omega
  refine ⟨?_, ?_, ?_, ?_, ?_⟩
  · rw [step_n, hn1]; omega
  · rw [step_n, hn1, step_rolled, List.length_append, hinv.rolled_length]; rfl
  · rw [step_k]
    have := refill_k_lt W dostats st
    omega
  · intro m
    rw [step_n, hn1, step_hits]
    cases dostats
    · exact Nat.le_succ_of_le (hinv.hits_le m)
    · exact Nat.le_trans (updateHits_get_le _ _ _) (Nat.succ_le_succ (hinv.hits_le m))
  · intro i j hij hj
    rw [step_hits]
    cases dostats
    · exact hinv.hits_anti i j hij hj
    · exact updateHits_anti _ _ i j hij hj (hwrap _) (hinv.hits_anti i j hij hj)

/-- The invariant holds on entry to the loop. -/
theorem initState_inv (W : World) (H : RollingHash) (fileSize : Nat) :
    Inv fileSize (initState W H) := by
  refine ⟨Nat.zero_le _, rfl, Nat.zero_le _, ?_, ?_⟩
  · intro m
    show initHits.get m ≤ 0
    rw [initHits_get]
  · intro i j _ _
    show initHits.get _ ≤ initHits.get _
    rw [initHits_get, initHits_get]

theorem runLoop_inv (W : World) (dostats : Bool) (H : RollingHash) (fileSize : Nat)
    (hfs : fileSize < U64) (fuel : Nat) (st : State H.σ) (hinv : Inv fileSize st) :
    Inv fileSize (runLoop W dostats H fileSize fuel st) := by
  induction fuel generalizing st with
  | zero => exact hinv
  | succ fuel ih =>
    unfold runLoop
    split
    · next hn => exact ih _ (step_inv W dostats H fileSize hfs st hinv hn)
    · exact hinv

/-- After `fuel` iterations at most, `n` has advanced by `fuel`, capped at the
target. -/
theorem runLoop_n (W : World) (dostats : Bool) (H : RollingHash) (fileSize : Nat)
    (hfs : fileSize < U64) (fuel : Nat) (st : State H.σ) (hinv : Inv fileSize st) :
    (runLoop W dostats H fileSize fuel st).n = min (st.n + fuel) fileSize := by
  induction fuel generalizing st with
  | zero =>
    have := hinv.n_le
    simp only [runLoop, Nat.add_zero]
    omega
  | succ fuel ih =>
    have hle := hinv.n_le
    unfold runLoop
    split
    · next hn =>
      rw [ih _ (step_inv W dostats H fileSize hfs st hinv hn), step_n,
        Nat.mod_eq_of_lt (by omega)]
      omega
    · omega

/-- Fuel beyond the target size does not change the final state. -/
theorem runLoop_of_done (W : World) (dostats : Bool) (H : RollingHash) (fileSize : Nat)
    (fuel : Nat) (st : State H.σ) (hdone : ¬ st.n < fileSize) :
    runLoop W dostats H fileSize fuel st = st := by
  cases fuel with
  | zero => rfl
  | succ fuel => simp only [runLoop, if_neg hdone]

theorem runLoop_add (W : World) (dostats : Bool) (H : RollingHash) (fileSize : Nat)
    (a b : Nat) (st : State H.σ) :
    runLoop W dostats H fileSize (a + b) st =
      runLoop W dostats H fileSize b (runLoop W dostats H fileSize a st) := by
  induction a generalizing st with
  | zero => simp [runLoop]
  | succ a ih =>
    rw [Nat.succ_add]
    by_cases hn : st.n < fileSize
    · simp only [runLoop, if_pos hn]
      exact ih _
    · simp only [runLoop, if_neg hn]
      exact (runLoop_of_done W dostats H fileSize b st hn).symm

/-! ## The driver loop: main results -/

/-- C5. At the head of every iteration of the driver loop and on exit, for
every target size below `2 ^ 64`, every rolling hash and either display mode,
the hit count `hits[m]` of every key `m`, in particular of every mask of the
mask table, is at most `n`, and `n` is the number of bytes rolled so far. -/
theorem hits_le_processed (W : World) (dostats : Bool) (H : RollingHash) (fileSize : Nat)
    (hfs : fileSize < U64) (fuel m : Nat) :
    (runLoop W dostats H fileSize fuel (initState W H)).hits.get m ≤
        (runLoop W dostats H fileSize fuel (initState W H)).n ∧
      (runLoop W dostats H fileSize fuel (initState W H)).n =
        (runLoop W dostats H fileSize fuel (initState W H)).rolled.length := by
  have hinv := runLoop_inv W dostats H fileSize hfs fuel _ (initState_inv W H fileSize)
  exact ⟨hinv.hits_le m, hinv.rolled_length.symm⟩

/-- After two iterations on a source of `0xff` bytes the 1-bit mask has at most
as many hits as bytes were processed. -/
theorem hits_le_processed_witness :
    (runLoop (demoWorld 3 [255] 1) true sum8 3 2 (initState (demoWorld 3 [255] 1) sum8)).hits.get 1
        ≤ (runLoop (demoWorld 3 [255] 1) true sum8 3 2 (initState (demoWorld 3 [255] 1) sum8)).n ∧
      (runLoop (demoWorld 3 [255] 1) true sum8 3 2 (initState (demoWorld 3 [255] 1) sum8)).n =
        (runLoop (demoWorld 3 [255] 1) true sum8 3 2
          (initState (demoWorld 3 [255] 1) sum8)).rolled.length :=
  hits_le_processed (demoWorld 3 [255] 1) true sum8 3 (by decide) 2 1

/-- C6. At the head of every iteration of the driver loop and on exit, for
indices `i ≤ j < 64` the hit count of mask `i` is at least the hit count of
mask `j`; in particular the 1-bit mask has at least the hits of the 64-bit
mask. -/
theorem hits_antitone (W : World) (dostats : Bool) (H : RollingHash) (fileSize : Nat)
    (hfs : fileSize < U64) (fuel i j mi mj : Nat) (hij : i ≤ j) (hj : j < 64)
    (hmi : genMasks[i]? = some mi) (hmj : genMasks[j]? = some mj) :
    (runLoop W dostats H fileSize fuel (initState W H)).hits.get mj ≤
      (runLoop W dostats H fileSize fuel (initState W H)).hits.get mi := by
  have hinv := runLoop_inv W dostats H fileSize hfs fuel _ (initState_inv W H fileSize)
  rw [genMasks_getElem? i (by omega)] at hmi
  rw [genMasks_getElem? j hj] at hmj
  cases hmi
  cases hmj
  exact hinv.hits_anti i j hij hj

/-- After two iterations on a source of `0xff` bytes the 64-bit mask has at
most as many hits as the 1-bit mask. -/
theorem hits_antitone_witness :
    (runLoop (demoWorld 3 [255] 1) true sum8 3 2
        (initState (demoWorld 3 [255] 1) sum8)).hits.get (2 ^ 64 - 1) ≤
      (runLoop (demoWorld 3 [255] 1) true sum8 3 2
        (initState (demoWorld 3 [255] 1) sum8)).hits.get 1 :=
  hits_antitone (demoWorld 3 [255] 1) true sum8 3 (by decide) 2 0 63 1 (2 ^ 64 - 1)
    (by decide) (by decide) (by decide) (by decide)

/-- C7. For every target size `fileSize` below `2 ^ 64` (0 included) the
driver loop exits: with `fileSize` iterations or more of fuel it returns a
state in which `n` equals `fileSize` and `Roll` has been called exactly
`fileSize` times, and with less fuel it has not exited. After any number
`fuel` of iterations `n` is `min fuel fileSize`, so `n` never wraps around. -/
theorem loop_terminates (W : World) (dostats : Bool) (H : RollingHash) (fileSize : Nat)
    (hfs : fileSize < U64) :
    (∀ fuel, fileSize ≤ fuel →
      ∃ st, loop W dostats H fileSize fuel (initState W H) = some st ∧
        st.n = fileSize ∧ st.rolled.length = fileSize) ∧
    (∀ fuel, fuel < fileSize → loop W dostats H fileSize fuel (initState W H) = none) ∧
    (∀ fuel, (runLoop W dostats H fileSize fuel (initState W H)).n = min fuel fileSize) := by
  have hn : ∀ fuel, (runLoop W dostats H fileSize fuel (initState W H)).n = min fuel fileSize := by
    intro fuel
    rw [runLoop_n W dostats H fileSize hfs fuel _ (initState_inv W H fileSize)]
    show min (0 + fuel) fileSize = _
    rw [Nat.zero_add]
  refine ⟨?_, ?_, hn⟩
  · intro fuel hfuel
    have hinv := runLoop_inv W dostats H fileSize hfs fuel _ (initState_inv W H fileSize)
    have hfin : (runLoop W dostats H fileSize fuel (initState W H)).n = fileSize := by
      rw [hn fuel]; omega
    refine ⟨runLoop W dostats H fileSize fuel (initState W H), ?_, hfin, ?_⟩
    · unfold loop
      simp only [hfin, Nat.lt_irrefl, if_false]
    · rw [hinv.rolled_length, hfin]
  · intro fuel hfuel
    unfold loop
    have hlt : (runLoop W dostats H fileSize fuel (initState W H)).n < fileSize := by
      rw [hn fuel]; omega
    simp only [hlt, if_true]

/-- With target size 3 the loop exits within 3 iterations, at `n = 3`. -/
theorem loop_terminates_witness :
    ∃ st, loop (demoWorld 3 [255] 1) true sum8 3 3 (initState (demoWorld 3 [255] 1) sum8) =
        some st ∧ st.n = 3 ∧ st.rolled.length = 3 :=
  (loop_terminates (demoWorld 3 [255] 1) true sum8 3 (by decide)).1 3 (by decide)

/-! ## Algorithm selection and refills: main results -/

theorem selectHash_of_not_registered (name : String) (h : name ∉ registeredNames) :
    selectHash name = .error (name ++ ": unrecognized checksum") := by
  simp only [registeredNames, List.mem_cons, List.mem_singleton, not_or, List.mem_nil_iff,
    or_false] at h
  unfold selectHash
  simp [h.1, h.2.1, h.2.2.1, h.2.2.2]

theorem selectHash_of_registered (name : String) (h : name ∈ registeredNames) :
    ∃ algo, selectHash name = .ok algo := by
  simp only [registeredNames, List.mem_cons, List.mem_singleton, List.mem_nil_iff,
    or_false] at h
  rcases h with h | h | h | h <;> subst h
  · exact ⟨.adler32, rfl⟩
  · exact ⟨.rabinkarp32, rfl⟩
  · exact ⟨.buzhash32, rfl⟩
  · exact ⟨.buzhash64, rfl⟩

/-- C8. For every algorithm name that is not a case label of the switch, the
selection fails, and `main` ends in a fatal error with no byte rolled, no hit
table and nothing printed; when the size parses and the source opens, the
fatal error is the unrecognized-checksum message and only the pre-fill read
has happened. -/
theorem unrecognized_checksum_fatal (W : World) (F : Flags) (fuel : Nat)
    (hname : F.rollsum ∉ registeredNames) :
    selectHash F.rollsum = .error (F.rollsum ++ ": unrecognized checksum") ∧
    ∃ o, main W F fuel = some o ∧ (∃ msg, o.status = .fatal msg) ∧
      o.rolled = [] ∧ o.hits = HitTable.empty ∧ o.out = [] ∧
      (∀ fileSize, W.toBytes F.size = .ok fileSize → W.openErr = none →
        o.status = .fatal (F.rollsum ++ ": unrecognized checksum") ∧ o.reads = 1) := by
  have hsel := selectHash_of_not_registered F.rollsum hname
  refine ⟨hsel, ?_⟩
  unfold main
  cases hsize : W.toBytes F.size with
  | error e =>
    exact ⟨_, rfl, ⟨e, rfl⟩, rfl, rfl, rfl, fun fileSize hfs _ => by cases hfs⟩
  | ok fileSize =>
    cases hopen : W.openErr with
    | some e =>
      exact ⟨_, rfl, ⟨e, rfl⟩, rfl, rfl, rfl, fun _ _ hnone => by cases hnone⟩
    | none =>
      simp only [hsel]
      exact ⟨_, rfl, ⟨_, rfl⟩, rfl, rfl, rfl, fun _ _ _ => ⟨rfl, rfl⟩⟩

/-- The name `unknown_algo` is rejected: the run ends with the fatal message
after the pre-fill read, with nothing rolled and nothing printed. -/
theorem unrecognized_checksum_fatal_witness :
    selectHash "unknown_algo" = .error "unknown_algo: unrecognized checksum" ∧
    ∃ o, main (demoWorld 1 [255] 5) ⟨"unknown_algo", true, "1"⟩ 1 = some o ∧
      (∃ msg, o.status = .fatal msg) ∧ o.rolled = [] ∧ o.hits = HitTable.empty ∧ o.out = [] ∧
      (∀ fileSize, (demoWorld 1 [255] 5).toBytes "1" = .ok fileSize →
        (demoWorld 1 [255] 5).openErr = none →
        o.status = .fatal ("unknown_algo" ++ ": unrecognized checksum") ∧ o.reads = 1) :=
  unrecognized_checksum_fatal (demoWorld 1 [255] 5) ⟨"unknown_algo", true, "1"⟩ 1 (by decide)

/-- C9, the code at the failing input. The usage string of `-sum` is the list
of advertised names joined by `|`; the advertised name `rabinkarb32` is not a
case label, so it reaches the unrecognized-checksum failure and `main` ends
fatally with nothing rolled. The other three advertised names are accepted,
and the label that selects the Rabin-Karp hash is `bozo32`. -/
theorem advertised_rabinkarb32_rejected :
    sumUsage = "|".intercalate advertisedNames ∧
    "rabinkarb32" ∈ advertisedNames ∧
    selectHash "rabinkarb32" = .error "rabinkarb32: unrecognized checksum" ∧
    (main (demoWorld 1 [255] 5) ⟨"rabinkarb32", false, "1"⟩ 1).map
        (fun o => (o.status, o.rolled, o.out)) =
      some (.fatal "rabinkarb32: unrecognized checksum", [], []) ∧
    selectHash "adler32" = .ok .adler32 ∧
    selectHash "buzhash32" = .ok .buzhash32 ∧
    selectHash "buzhash64" = .ok .buzhash64 ∧
    selectHash "bozo32" = .ok .rabinkarp32 :=
  ⟨by decide, by decide, rfl, by decide, rfl, rfl, rfl, rfl⟩

/-- C10, the code at the failing input. The source supplies a single byte to
the pre-fill, so `io.ReadFull` copies 1 byte and returns the error
`unexpected EOF`; `main` nevertheless rolls a byte of the partly filled
buffer, increments the hit count of the 1-bit mask and returns normally. -/
theorem short_read_ignored :
    (readFull (fun _ => 0) [255]).2 = (1, some "unexpected EOF") ∧
    (main (demoWorld 1 [255] 5) ⟨"adler32", true, "1"⟩ 1).map
        (fun o => (o.status, o.reads, o.rolled, o.hits.get 1)) =
      some (.ok, 1, [255], 1) :=
  ⟨by decide, by decide⟩

/-! ## Facts about the buffers and the reports -/

theorem bufsize_eq : bufsize = 1048576 := by decide

theorem refill_of_lt (W : World) (dostats : Bool) {σ : Type} (st : State σ)
    (h : st.k < bufsize) : refill W dostats st = st := by
  unfold refill
  rw [if_neg (by omega)]

theorem refill_of_ge (W : World) (dostats : Bool) {σ : Type} (st : State σ)
    (h : bufsize ≤ st.k) :
    refill W dostats st =
      { st with
        out := st.out ++
          [if dostats then Output.table ("Byte count: " ++ W.byteSize st.n)
              (tableRows W st.n st.hits)
           else Output.progress ("Byte count: " ++ W.byteSize st.n)]
        rbuf := (readFull st.rbuf (W.source st.reads)).1
        reads := st.reads + 1
        k := 0 } := by
  unfold refill
  rw [if_pos h]

theorem step_out (W : World) (dostats : Bool) (H : RollingHash) (st : State H.σ) :
    (step W dostats H st).out = (refill W dostats st).out := rfl

theorem step_reads (W : World) (dostats : Bool) (H : RollingHash) (st : State H.σ) :
    (step W dostats H st).reads = (refill W dostats st).reads := rfl

theorem step_rbuf (W : World) (dostats : Bool) (H : RollingHash) (st : State H.σ) :
    (step W dostats H st).rbuf = (refill W dostats st).rbuf := rfl

theorem step_roll (W : World) (dostats : Bool) (H : RollingHash) (st : State H.σ) :
    (step W dostats H st).roll =
      H.roll st.roll ((refill W dostats st).rbuf (refill W dostats st).k) := by
  show H.roll (refill W dostats st).roll _ = _
  rw [refill_roll]

theorem bufferAt_succ (W : World) (j : Nat) :
    bufferAt W (j + 1) = (readFull (bufferAt W j) (W.source (j + 1))).1 := rfl

/-- The loop body preserves the buffer invariant when `n` does not wrap. -/
theorem step_bufInv (W : World) (dostats : Bool) (H : RollingHash) (st : State H.σ)
    (hn : st.n + 1 < U64) (hinv : BufInv W st) : BufInv W (step W dostats H st) := by
  have hn1 : (st.n + 1) % U64 = st.n + 1 := Nat.mod_eq_of_lt hn
  have hreads := hinv.reads_pos
  have hneq := hinv.n_eq
  have hkle := hinv.k_le
  have hkpos := hinv.k_pos
  have hlen := hinv.out_length
  rw [bufsize_eq] at hneq hkle
  by_cases hk : bufsize ≤ st.k
  · have hkeq : st.k = 1048576 := by rw [bufsize_eq] at hk; omega
    have hrf := refill_of_ge W dostats st hk
    have hbuf : (readFull st.rbuf (W.source st.reads)).1 = bufferAt W st.reads := by
      rw [hinv.rbuf_eq]
      have : st.reads = (st.reads - 1) + 1 := by omega
      conv_rhs => rw [this, bufferAt_succ]
      rw [← this]
    refine ⟨?_, ?_, ?_, ?_, ?_, ?_, ?_⟩
    · rw [step_reads, hrf]; show 1 ≤ st.reads + 1; omega
    · rw [step_n, hn1, step_reads, step_k, hrf, bufsize_eq]
      show st.n + 1 = 1048576 * (st.reads + 1 - 1) + (0 + 1)
      omega
    · rw [step_k, hrf, bufsize_eq]; show 0 + 1 ≤ 1048576; omega
    · intro _; rw [step_k]; omega
    · rw [step_rbuf, step_reads, hrf]
      show (readFull st.rbuf (W.source st.reads)).1 = bufferAt W (st.reads + 1 - 1)
      rw [hbuf, Nat.add_sub_cancel]
    · rw [step_out, step_reads, hrf]
      show (st.out ++ [_]).length + 1 = st.reads + 1
      rw [List.length_append, List.length_singleton]; omega
    · rw [step_rolled, step_n, hn1, List.range_succ, List.map_append, ← hinv.rolled_eq, hrf]
      show st.rolled ++ [(readFull st.rbuf (W.source st.reads)).1 0] = _
      rw [hbuf, List.map_singleton]
      have h1 : st.n / bufsize = st.reads := by rw [bufsize_eq]; omega
      have h2 : st.n % bufsize = 0 := by rw [bufsize_eq]; omega
      rw [h1, h2]
  · have hklt : st.k < bufsize := by omega
    have hrf := refill_of_lt W dostats st hklt
    rw [bufsize_eq] at hklt
    refine ⟨?_, ?_, ?_, ?_, ?_, ?_, ?_⟩
    · rw [step_reads, hrf]; exact hreads
    · rw [step_n, hn1, step_reads, step_k, hrf, bufsize_eq]; omega
    · rw [step_k, hrf, bufsize_eq]; omega
    · intro _; rw [step_k]; omega
    · rw [step_rbuf, step_reads, hrf]; exact hinv.rbuf_eq
    · rw [step_out, step_reads, hrf]; exact hlen
    · rw [step_rolled, step_n, hn1, List.range_succ, List.map_append, ← hinv.rolled_eq, hrf,
        List.map_singleton, hinv.rbuf_eq]
      have h1 : st.n / bufsize = st.reads - 1 := by rw [bufsize_eq]; omega
      have h2 : st.n % bufsize = st.k := by rw [bufsize_eq]; omega
      rw [h1, h2]

/-- The buffer invariant holds on entry to the loop. -/
theorem initState_bufInv (W : World) (H : RollingHash) : BufInv W (initState W H) :=
  ⟨Nat.le_refl 1, rfl, Nat.zero_le _, fun h => absurd h (Nat.lt_irrefl 0), rfl, rfl, rfl⟩

theorem runLoop_bufInv (W : World) (dostats : Bool) (H : RollingHash) (fileSize : Nat)
    (hfs : fileSize < U64) (fuel : Nat) (st : State H.σ) (hinv : BufInv W st) :
    BufInv W (runLoop W dostats H fileSize fuel st) := by
  induction fuel generalizing st with
  | zero => exact hinv
  | succ fuel ih =>
    unfold runLoop
    split
    · next hn => exact ih _ (step_bufInv W dostats H st (by omega) hinv)
    · exact hinv

/-- One more iteration of fuel is one more run of the loop body, if the loop
condition holds. -/
theorem runLoop_succ (W : World) (dostats : Bool) (H : RollingHash) (fileSize fuel : Nat)
    (st : State H.σ) :
    runLoop W dostats H fileSize (fuel + 1) st =
      if (runLoop W dostats H fileSize fuel st).n < fileSize then
        step W dostats H (runLoop W dostats H fileSize fuel st)
      else runLoop W dostats H fileSize fuel st := by
  rw [runLoop_add]
  simp only [runLoop]

/-- The printed text only grows. -/
theorem runLoop_out_append (W : World) (dostats : Bool) (H : RollingHash) (fileSize fuel : Nat)
    (st : State H.σ) : ∃ l, (runLoop W dostats H fileSize fuel st).out = st.out ++ l := by
  induction fuel generalizing st with
  | zero => exact ⟨[], (List.append_nil _).symm⟩
  | succ fuel ih =>
    unfold runLoop
    split
    · obtain ⟨l, hl⟩ := ih (step W dostats H st)
      rw [hl, step_out]
      unfold refill
      split
      · exact ⟨_, List.append_assoc _ _ l⟩
      · exact ⟨l, rfl⟩
    · exact ⟨[], (List.append_nil _).symm⟩

/-- With enough fuel the loop exits in the state reached after `fileSize`
iterations, where `n` is `fileSize`. -/
theorem loop_eq_some (W : World) (dostats : Bool) (H : RollingHash) (fileSize fuel : Nat)
    (hfs : fileSize < U64) (hfuel : fileSize ≤ fuel) :
    loop W dostats H fileSize fuel (initState W H) =
        some (runLoop W dostats H fileSize fileSize (initState W H)) ∧
      (runLoop W dostats H fileSize fileSize (initState W H)).n = fileSize := by
  have hn : (runLoop W dostats H fileSize fileSize (initState W H)).n = fileSize := by
    rw [runLoop_n W dostats H fileSize hfs fileSize _ (initState_inv W H fileSize)]
    show min (0 + fileSize) fileSize = fileSize
    omega
  have hsplit : fuel = fileSize + (fuel - fileSize) := by omega
  have hrun : runLoop W dostats H fileSize fuel (initState W H) =
      runLoop W dostats H fileSize fileSize (initState W H) := by
    rw [hsplit, runLoop_add]
    exact runLoop_of_done W dostats H fileSize _ _ (by omega)
  refine ⟨?_, hn⟩
  unfold loop
  simp only [hrun, hn, Nat.lt_irrefl, if_false]

/-- The function `main` once the size has parsed, the source has opened, the
algorithm is recognized and the loop has exited in state `st`. -/
theorem main_of_loop (W : World) (F : Flags) (fuel fileSize : Nat) (algo : Algorithm)
    (st : State (W.lib algo).σ) (hsize : W.toBytes F.size = .ok fileSize)
    (hopen : W.openErr = none) (hsel : selectHash F.rollsum = .ok algo)
    (hloop : loop W F.dostats (W.lib algo) fileSize fuel (initState W (W.lib algo)) = some st) :
    main W F fuel =
      match throughput st.n W.elapsed with
      | none =>
        some ⟨(W.closeErr.map Status.fatal).getD (.panic "integer divide by zero"),
          st.reads, st.rolled, st.hits, st.out⟩
      | some rate =>
        some ⟨(W.closeErr.map Status.fatal).getD .ok, st.reads, st.rolled, st.hits,
          st.out ++ [.summary (W.byteSize st.n) W.elapsed (W.byteSize rate)]⟩ := by
  unfold main throughput
  simp only [hsize, hopen, hsel, hloop]

theorem MiB_eq : MiB = 1048576 := by decide

theorem tableRows_bits (W : World) (n : Nat) (hits : HitTable) :
    (tableRows W n hits).map Row.bits = (List.range 64).map (· + 1) := by
  unfold tableRows
  rw [List.map_map, ← genMasks_length, ← List.enum_map_fst genMasks, List.map_map]
  rfl

theorem tableRows_mask (W : World) (n : Nat) (hits : HitTable) :
    (tableRows W n hits).map Row.mask = genMasks := by
  unfold tableRows
  rw [List.map_map]
  exact List.enum_map_snd genMasks

theorem runLoop_one (W : World) (dostats : Bool) (H : RollingHash) (fileSize : Nat)
    (st : State H.σ) :
    runLoop W dostats H fileSize 1 st =
      if st.n < fileSize then step W dostats H st else st := rfl

/-- When `n` is a positive multiple of the buffer size, the buffer is used
up, and the reads and the reports are counted by the multiple. -/
theorem BufInv.at_multiple {W : World} {σ : Type} {st : State σ} (hinv : BufInv W st)
    (j : Nat) (hn : st.n = bufsize * (j + 1)) :
    st.reads = j + 1 ∧ st.k = bufsize ∧ st.out.length = j := by
  have h1 := hinv.n_eq
  have h2 := hinv.k_le
  have h3 := hinv.k_pos
  have h4 := hinv.out_length
  have h5 := hinv.reads_pos
  rw [bufsize_eq] at h1 h2 hn ⊢
  have h6 := h3 (by omega)
  omega

/-- The run for a target of 2 MiB with statistics: the loop exits after the
pre-fill and one refill, having printed one table, at `n` = 1 MiB. -/
theorem loop_two_MiB (W : World) (H : RollingHash) (fuel : Nat) (hfuel : 2 * MiB ≤ fuel) :
    ∃ st, loop W true H (2 * MiB) fuel (initState W H) = some st ∧
      st.n = 2 * MiB ∧ st.reads = 2 ∧
      st.out = [Output.table ("Byte count: " ++ W.byteSize MiB)
        (tableRows W MiB (runLoop W true H (2 * MiB) MiB (initState W H)).hits)] := by
  have hfs : 2 * MiB < U64 := by decide
  obtain ⟨hloop, hn⟩ := loop_eq_some W true H (2 * MiB) fuel hfs hfuel
  refine ⟨_, hloop, hn, ?_⟩
  -- the state after the first buffer
  have h1n : (runLoop W true H (2 * MiB) MiB (initState W H)).n = MiB := by
    rw [runLoop_n W true H (2 * MiB) hfs MiB _ (initState_inv W H _)]
    show min (0 + MiB) (2 * MiB) = MiB
    omega
  have h1 := (runLoop_bufInv W true H (2 * MiB) hfs MiB _ (initState_bufInv W H)).at_multiple 0
    (h1n.trans (by decide))
  have h1out : (runLoop W true H (2 * MiB) MiB (initState W H)).out = [] :=
    List.eq_nil_of_length_eq_zero h1.2.2
  -- one more iteration prints the table
  have hlt : (runLoop W true H (2 * MiB) MiB (initState W H)).n < 2 * MiB := by
    rw [h1n]; decide
  have hrun : runLoop W true H (2 * MiB) (MiB + (1 + (MiB - 1))) (initState W H) =
      runLoop W true H (2 * MiB) (MiB - 1)
        (step W true H (runLoop W true H (2 * MiB) MiB (initState W H))) := by
    rw [runLoop_add, runLoop_add, runLoop_one, if_pos hlt]
  have hfuel2 : 2 * MiB = MiB + (1 + (MiB - 1)) := by decide
  have hrun2 : runLoop W true H (2 * MiB) (2 * MiB) (initState W H) =
      runLoop W true H (2 * MiB) (MiB - 1)
        (step W true H (runLoop W true H (2 * MiB) MiB (initState W H))) :=
    (congrArg (fun f => runLoop W true H (2 * MiB) f (initState W H)) hfuel2).trans hrun
  have hstep : (step W true H (runLoop W true H (2 * MiB) MiB (initState W H))).out =
      [Output.table ("Byte count: " ++ W.byteSize MiB)
        (tableRows W MiB (runLoop W true H (2 * MiB) MiB (initState W H)).hits)] := by
    rw [step_out, refill_of_ge W true _ (Nat.le_of_eq h1.2.1.symm)]
    show (runLoop W true H (2 * MiB) MiB (initState W H)).out ++ [_] = _
    rw [h1out, h1n]
    rfl
  -- the remaining iterations print nothing
  have h2 := (runLoop_bufInv W true H (2 * MiB) hfs (2 * MiB) _
    (initState_bufInv W H)).at_multiple 1 (hn.trans (by decide))
  refine ⟨h2.1, ?_⟩
  obtain ⟨l, hl⟩ := runLoop_out_append W true H (2 * MiB) (MiB - 1)
    (step W true H (runLoop W true H (2 * MiB) MiB (initState W H)))
  rw [← hrun2, hstep] at hl
  have hlnil : l = [] := by
    apply List.eq_nil_of_length_eq_zero
    have hlen := congrArg List.length hl
    rw [List.length_append, List.length_singleton, h2.2.2] at hlen
    omega
  rw [hl, hlnil]
  rfl

/-- For every elapsed time that is not 0 as a `uint64`, the throughput
expression is the quotient of the wrapped product. -/
theorem throughput_of_ne_zero (n : Nat) (d : Int) (hd : toUint64 d ≠ 0) :
    throughput n d = some ((n * 1000000000) % U64 / toUint64 d) := by
  unfold throughput goDiv
  rw [if_neg hd]

/-- A run that parses its size, opens the source, recognizes the algorithm
and closes the source without error, with enough fuel and an elapsed time for
which the throughput expression yields `rate`: `main` returns normally, has
rolled `fileSize` bytes, and the last thing printed is the summary with the
byte count `fileSize` and that rate. -/
theorem main_summary (W : World) (F : Flags) (fuel fileSize : Nat) (algo : Algorithm)
    (rate : Nat) (hsize : W.toBytes F.size = .ok fileSize) (hopen : W.openErr = none)
    (hsel : selectHash F.rollsum = .ok algo) (hfs : fileSize < U64) (hfuel : fileSize ≤ fuel)
    (hrate : throughput fileSize W.elapsed = some rate) (hclose : W.closeErr = none) :
    ∃ o, main W F fuel = some o ∧ o.status = .ok ∧ o.rolled.length = fileSize ∧
      o.out.getLast? = some (.summary (W.byteSize fileSize) W.elapsed (W.byteSize rate)) := by
  obtain ⟨hloop, hn⟩ := loop_eq_some W F.dostats (W.lib algo) fileSize fuel hfs hfuel
  have hlen := (runLoop_inv W F.dostats (W.lib algo) fileSize hfs fileSize _
    (initState_inv W (W.lib algo) fileSize)).rolled_length
  have hmain := main_of_loop W F fuel fileSize algo _ hsize hopen hsel hloop
  rw [hn, hrate] at hmain
  rw [hn] at hlen
  refine ⟨_, hmain, ?_, hlen, List.getLast?_concat _⟩
  show (W.closeErr.map Status.fatal).getD .ok = .ok
  rw [hclose]
  rfl

/-- As long as the product `n * 10 ^ 9` fits in a `uint64`, the throughput
expression is the exact quotient for every positive `int64` duration. -/
theorem throughput_exact_of_small (n : Nat) (d : Int) (hn : n * 10 ^ 9 < U64) (hd : 0 < d)
    (hd64 : d < 2 ^ 63) : throughput n d = some (exactRate n d.toNat) := by
  have hconv : toUint64 d = d.toNat := by
    unfold toUint64
    rw [Int.emod_eq_of_lt (Int.le_of_lt hd)
      (Int.lt_trans hd64 (by unfold U64; norm_num))]
  have hne : toUint64 d ≠ 0 := by
    rw [hconv]; omega
  rw [throughput_of_ne_zero n d hne, hconv]
  have h9 : (1000000000 : Nat) = 10 ^ 9 := by norm_num
  rw [h9, Nat.mod_eq_of_lt hn]
  rfl

/-! ## The reports: main results -/

/-- C11, as stated, fails: the throughput expression has no guard, so with an
elapsed time of 0 nanoseconds it divides by zero, for a byte count of 0 as for
any other, and yields no result. -/
theorem throughput_zero_elapsed_counterexample :
    throughput 0 0 = none ∧ throughput 1 0 = none ∧
    ¬ ∀ (n : Nat) (d : Int), ∃ rate, throughput n d = some rate := by
  refine ⟨rfl, rfl, ?_⟩
  intro h
  obtain ⟨rate, hrate⟩ := h 0 0
  cases hrate

/-- C11, as amended. For every elapsed duration that is a nonzero `int64`, the
throughput expression does not divide by zero: it yields a result for every
byte count, the result 0 for the byte count 0, and a run of `main` that parses
its size, opens and closes the source without error and recognizes the
algorithm returns normally, the last thing printed being the summary with that
result. -/
theorem throughput_defined_of_nonzero (W : World) (F : Flags) (fuel fileSize : Nat)
    (algo : Algorithm) (hsize : W.toBytes F.size = .ok fileSize) (hopen : W.openErr = none)
    (hsel : selectHash F.rollsum = .ok algo) (hfs : fileSize < U64) (hfuel : fileSize ≤ fuel)
    (hclose : W.closeErr = none) (hd : W.elapsed ≠ 0) (hlo : -(2 ^ 63) ≤ W.elapsed)
    (hhi : W.elapsed < 2 ^ 63) :
    toUint64 W.elapsed ≠ 0 ∧
    (∀ n, throughput n W.elapsed = some ((n * 1000000000) % U64 / toUint64 W.elapsed)) ∧
    throughput 0 W.elapsed = some 0 ∧
    ∃ rate o, throughput fileSize W.elapsed = some rate ∧ main W F fuel = some o ∧
      o.status = .ok ∧
      o.out.getLast? = some (.summary (W.byteSize fileSize) W.elapsed (W.byteSize rate)) := by
  have hne : toUint64 W.elapsed ≠ 0 := by
    unfold toUint64 U64
    push_cast
    omega
  have hthr : ∀ n, throughput n W.elapsed =
      some ((n * 1000000000) % U64 / toUint64 W.elapsed) :=
    fun n => throughput_of_ne_zero n W.elapsed hne
  refine ⟨hne, hthr, ?_, ?_⟩
  · rw [hthr 0]
    simp
  · obtain ⟨o, hmain, hstatus, _, hlast⟩ :=
      main_summary W F fuel fileSize algo _ hsize hopen hsel hfs hfuel (hthr fileSize) hclose
    exact ⟨_, o, hthr fileSize, hmain, hstatus, hlast⟩

/-- With a target of 0 bytes and an elapsed time of 37194 nanoseconds, `main`
returns normally and the summary reports the throughput 0. -/
theorem throughput_defined_of_nonzero_witness :
    toUint64 (demoWorld 0 [255] 37194).elapsed ≠ 0 ∧
    (∀ n, throughput n (demoWorld 0 [255] 37194).elapsed =
      some ((n * 1000000000) % U64 / toUint64 (demoWorld 0 [255] 37194).elapsed)) ∧
    throughput 0 (demoWorld 0 [255] 37194).elapsed = some 0 ∧
    ∃ rate o, throughput 0 (demoWorld 0 [255] 37194).elapsed = some rate ∧
      main (demoWorld 0 [255] 37194) ⟨"adler32", false, "0"⟩ 0 = some o ∧
      o.status = .ok ∧
      o.out.getLast? = some (.summary ((demoWorld 0 [255] 37194).byteSize 0)
        (demoWorld 0 [255] 37194).elapsed ((demoWorld 0 [255] 37194).byteSize rate)) :=
  throughput_defined_of_nonzero (demoWorld 0 [255] 37194) ⟨"adler32", false, "0"⟩ 0 0
    .adler32 rfl rfl rfl (by decide) (Nat.le_refl 0) rfl (by decide) (by decide) (by decide)

/-- C12, the code at the failing input. For 32 GiB rolled in 60 seconds the
`uint64` product `n*1e9` wraps around: the throughput expression yields
265216571 while the exact quotient `n * 10 ^ 9 / d` is 572662306, and the
summary printed by `main` carries the wrapped value. -/
theorem throughput_wraps :
    throughput (32 * GiB) 60000000000 = some 265216571 ∧
    exactRate (32 * GiB) 60000000000 = 572662306 ∧
    ∃ o, main (demoWorld (32 * GiB) [] 60000000000) ⟨"adler32", false, "32G"⟩ (32 * GiB) =
        some o ∧
      o.status = .ok ∧ o.rolled.length = 32 * GiB ∧
      o.out.getLast? = some (.summary "34359738368" 60000000000 "265216571") :=
  ⟨by decide, by decide,
   main_summary (demoWorld (32 * GiB) [] 60000000000) ⟨"adler32", false, "32G"⟩ (32 * GiB)
     (32 * GiB) .adler32 265216571 rfl rfl rfl (by decide) (Nat.le_refl _) (by decide) rfl⟩

/-- C13, as amended. With statistics on, a target of 2 MiB and the buffer of
1 MiB, for every source and every rolling hash the loop exits having called
`io.ReadFull` twice (the pre-fill and one refill) and having printed exactly
one full-table report, at the refill, with the byte count 1 MiB; the report
lists the 64 masks of `genMasks` in order with bits-required 1 to 64. -/
theorem two_MiB_one_report (W : World) (H : RollingHash) (fuel : Nat)
    (hfuel : 2 * MiB ≤ fuel) :
    ∃ st rows, loop W true H (2 * MiB) fuel (initState W H) = some st ∧
      st.reads = 2 ∧
      st.out = [Output.table ("Byte count: " ++ W.byteSize MiB) rows] ∧
      (st.out.filter Output.isTable).length = 1 ∧
      rows.map Row.bits = (List.range 64).map (· + 1) ∧
      rows.map Row.mask = genMasks := by
  obtain ⟨st, hloop, _, hreads, hout⟩ := loop_two_MiB W H fuel hfuel
  refine ⟨st, _, hloop, hreads, hout, ?_, tableRows_bits W _ _, tableRows_mask W _ _⟩
  rw [hout]
  rfl

/-- On a source of `0xff` bytes the run for 2 MiB prints one table. -/
theorem two_MiB_one_report_witness :
    ∃ st rows, loop (demoWorld (2 * MiB) [255] 1) true sum8 (2 * MiB) (2 * MiB)
        (initState (demoWorld (2 * MiB) [255] 1) sum8) = some st ∧
      st.reads = 2 ∧
      st.out = [Output.table
        ("Byte count: " ++ (demoWorld (2 * MiB) [255] 1).byteSize MiB) rows] ∧
      (st.out.filter Output.isTable).length = 1 ∧
      rows.map Row.bits = (List.range 64).map (· + 1) ∧
      rows.map Row.mask = genMasks :=
  two_MiB_one_report (demoWorld (2 * MiB) [255] 1) sum8 (2 * MiB) (by decide)

/-- C13, as stated, fails: on a source of `0xff` bytes the run for 2 MiB with
statistics does not print two full-table reports before the loop exits. -/
theorem two_MiB_two_reports_counterexample :
    ¬ ∃ st, loop (demoWorld (2 * MiB) [255] 1) true sum8 (2 * MiB) (2 * MiB)
        (initState (demoWorld (2 * MiB) [255] 1) sum8) = some st ∧
      (st.out.filter Output.isTable).length = 2 := by
  rintro ⟨st, hloop, hcount⟩
  obtain ⟨st', hloop', _, _, hout⟩ :=
    loop_two_MiB (demoWorld (2 * MiB) [255] 1) sum8 (2 * MiB) (Nat.le_refl _)
  rw [hloop] at hloop'
  cases hloop'
  rw [hout] at hcount
  exact absurd hcount (by decide)

/-! ## Facts about the counters and the rows -/

theorem foldl_set_zero_apply (ms : List Nat) (hits : HitTable) (m : Nat)
    (h : m ∈ ms ∨ hits m = some 0) :
    (ms.foldl (fun hits m => hits.set m 0) hits) m = some 0 := by
  induction ms generalizing hits with
  | nil =>
    rcases h with h | h
    · cases h
    · exact h
  | cons x xs ih =>
    apply ih
    rcases h with h | h
    · rcases List.mem_cons.1 h with rfl | hx
      · right; simp [HitTable.set]
      · left; exact hx
    · right
      show (if m = x then some 0 else hits m) = some 0
      split
      · rfl
      · exact h

theorem initHits_apply (m : Nat) (hm : m ∈ genMasks) : initHits m = some 0 :=
  foldl_set_zero_apply genMasks HitTable.empty m (Or.inl hm)

/-- A checksum of `L` bytes packs to a value below `256 ^ L`. -/
theorem hash2uint64_lt (b : List Byte) : hash2uint64 b < 256 ^ b.length := by
  rw [hash2uint64_eq_mod]
  exact Nat.lt_of_le_of_lt (Nat.mod_le _ _) (bigEndianSum_lt b)

/-- A value below `2 ^ i` fails the mask with `i + 1` low bits. -/
theorem fail_of_lt_two_pow (s i : Nat) (h : s < 2 ^ i) :
    s &&& (2 ^ (i + 1) - 1) ≠ 2 ^ (i + 1) - 1 := by
  intro heq
  have hle : s &&& (2 ^ (i + 1) - 1) ≤ s := Nat.and_le_left
  have hpow : 2 ^ (i + 1) = 2 * 2 ^ i := by rw [pow_succ]; ring
  have hpos : 0 < 2 ^ i := Nat.two_pow_pos i
  omega

theorem rowsChecked_eq (W : World) (n : Nat) (hits : HitTable) (ims : List (Nat × Nat)) :
    rowsChecked W n hits ims =
      some (ims.map fun im =>
        { mask := im.2
          bits := im.1 + 1
          frequency :=
            if hits.get im.2 ≠ 0 then W.byteSize (n / hits.get im.2) else "NaN" }) := by
  induction ims with
  | nil => rfl
  | cons im ims ih =>
    unfold rowsChecked
    rw [ih]
    unfold frequencyChecked goDiv
    by_cases h : hits.get im.2 = 0
    · simp [h]
    · simp [h]

/-! ## The counters, the rows and the bytes rolled: main results -/

/-- C15. The hit table on entry to the loop has the count 0 for each of the
64 distinct masks, and every iteration of the driver loop leaves the count of every key,
in particular of every mask, unchanged or exactly one higher, below `2 ^ 64`:
no count is lowered, reset or wrapped around, for every target size below
`2 ^ 64`, every rolling hash and either display mode. -/
theorem hits_never_decrease (W : World) (dostats : Bool) (H : RollingHash) (fileSize : Nat)
    (hfs : fileSize < U64) :
    genMasks.length = 64 ∧ genMasks.Nodup ∧
    (∀ m ∈ genMasks, (initState W H).hits m = some 0) ∧
    ∀ fuel m,
      ((runLoop W dostats H fileSize (fuel + 1) (initState W H)).hits.get m =
          (runLoop W dostats H fileSize fuel (initState W H)).hits.get m ∨
        (runLoop W dostats H fileSize (fuel + 1) (initState W H)).hits.get m =
          (runLoop W dostats H fileSize fuel (initState W H)).hits.get m + 1) ∧
      (runLoop W dostats H fileSize (fuel + 1) (initState W H)).hits.get m < U64 := by
  refine ⟨genMasks_length, genMasks_nodup, fun m hm => initHits_apply m hm, ?_⟩
  intro fuel m
  have hinv := runLoop_inv W dostats H fileSize hfs fuel _ (initState_inv W H fileSize)
  have hinv' := runLoop_inv W dostats H fileSize hfs (fuel + 1) _ (initState_inv W H fileSize)
  have hlt : (runLoop W dostats H fileSize (fuel + 1) (initState W H)).hits.get m < U64 := by
    have h1 := hinv'.hits_le m
    have h2 := hinv'.n_le
    omega
  refine ⟨?_, hlt⟩
  rw [runLoop_succ]
  split
  · next hn =>
    rw [step_hits]
    cases dostats
    · exact Or.inl rfl
    · have hle := hinv.hits_le m
      simp only [if_true]
      rw [updateHits_genMasks_get]
      split
      · right
        exact Nat.mod_eq_of_lt (by omega)
      · exact Or.inl rfl
  · exact Or.inl rfl

/-- With target size 3 on a source of `0xff` bytes, the second iteration
leaves the count of the 1-bit mask unchanged or one higher. -/
theorem hits_never_decrease_witness :
    ((runLoop (demoWorld 3 [255] 1) true sum8 3 (1 + 1)
          (initState (demoWorld 3 [255] 1) sum8)).hits.get 1 =
        (runLoop (demoWorld 3 [255] 1) true sum8 3 1
          (initState (demoWorld 3 [255] 1) sum8)).hits.get 1 ∨
      (runLoop (demoWorld 3 [255] 1) true sum8 3 (1 + 1)
          (initState (demoWorld 3 [255] 1) sum8)).hits.get 1 =
        (runLoop (demoWorld 3 [255] 1) true sum8 3 1
          (initState (demoWorld 3 [255] 1) sum8)).hits.get 1 + 1) ∧
    (runLoop (demoWorld 3 [255] 1) true sum8 3 (1 + 1)
      (initState (demoWorld 3 [255] 1) sum8)).hits.get 1 < U64 :=
  (hits_never_decrease (demoWorld 3 [255] 1) true sum8 3 (by decide)).2.2.2 1 1

/-- C16. Adjacent masks are strictly nested: for `i < 63`, the mask at `i` is
a bit-subset of the mask at `i + 1`, the two differ, and bit `i + 1` is
required by the mask at `i + 1` but not by the mask at `i`. -/
theorem genMasks_adjacent_strict (i mi mj : Nat) (hi : i < 63)
    (hmi : genMasks[i]? = some mi) (hmj : genMasks[i + 1]? = some mj) :
    mi &&& mj = mi ∧ mi ≠ mj ∧ mj.testBit (i + 1) = true ∧ mi.testBit (i + 1) = false := by
  rw [genMasks_getElem? i (by omega)] at hmi
  rw [genMasks_getElem? (i + 1) (by omega)] at hmj
  cases hmi
  cases hmj
  refine ⟨low_mask_and (Nat.le_succ i), Nat.ne_of_lt (low_mask_lt (Nat.lt_succ_self i)), ?_, ?_⟩
  · rw [Nat.testBit_two_pow_sub_one]
    exact decide_eq_true (Nat.lt_succ_self _)
  · rw [Nat.testBit_two_pow_sub_one]
    exact decide_eq_false (Nat.lt_irrefl _)

/-- The masks 7 and 15 at indices 2 and 3 are strictly nested. -/
theorem genMasks_adjacent_strict_witness :
    7 &&& 15 = 7 ∧ 7 ≠ 15 ∧ (15).testBit (2 + 1) = true ∧ (7).testBit (2 + 1) = false :=
  genMasks_adjacent_strict 2 7 15 (by decide) (by decide) (by decide)

/-- C17. If every checksum the hash returns after a `Roll` of the run has `L`
bytes, then for every mask index `i` with `8 * L ≤ i < 64` (which forces
`L < 8`) the hit count of the mask at `i` is 0 at the head of every iteration
and on exit. -/
theorem narrow_checksum_no_hits (W : World) (dostats : Bool) (H : RollingHash)
    (fileSize L : Nat)
    (hlen : ∀ j, 0 < j →
      (H.sum (runLoop W dostats H fileSize j (initState W H)).roll []).length = L)
    (fuel i mi : Nat) (hi : 8 * L ≤ i) (hi64 : i < 64) (hmi : genMasks[i]? = some mi) :
    (runLoop W dostats H fileSize fuel (initState W H)).hits.get mi = 0 := by
  rw [genMasks_getElem? i hi64] at hmi
  cases hmi
  induction fuel with
  | zero => exact initHits_get _
  | succ fuel ih =>
    have hl := hlen (fuel + 1) (Nat.succ_pos fuel)
    rw [runLoop_succ] at hl ⊢
    split
    · next hn =>
      rw [if_pos hn, step_roll] at hl
      rw [step_hits]
      cases dostats
      · exact ih
      · simp only [if_true]
        rw [updateHits_genMasks_get, if_neg, ih]
        rintro ⟨_, hpass⟩
        refine fail_of_lt_two_pow _ i ?_ hpass
        have hlt := hash2uint64_lt (H.sum (H.roll
          (runLoop W true H fileSize fuel (initState W H)).roll
          ((refill W true (runLoop W true H fileSize fuel (initState W H))).rbuf
            (refill W true (runLoop W true H fileSize fuel (initState W H))).k)) [])
        rw [hl, show (256 : Nat) = 2 ^ 8 by norm_num, ← pow_mul] at hlt
        exact Nat.lt_of_lt_of_le hlt (Nat.pow_le_pow_right (by norm_num) hi)
    · exact ih

/-- The one-byte checksum `sum8` never hits the 9-bit mask 511. -/
theorem narrow_checksum_no_hits_witness :
    (runLoop (demoWorld 3 [255] 1) true sum8 3 2
      (initState (demoWorld 3 [255] 1) sum8)).hits.get 511 = 0 :=
  narrow_checksum_no_hits (demoWorld 3 [255] 1) true sum8 3 1 (fun _ _ => rfl) 2 8 511
    (by decide) (by decide) (by decide)

/-- C18. In a full-table report for byte count `n` and hit table `hits`, the
report has one row per mask of `genMasks`; the frequency of a row is `"NaN"`
when the hit count of its mask is 0 and otherwise the formatted integer
quotient `n / hits[m]`, whose divisor is not zero; the computation with the
Go division explicit never panics and yields the same rows. The report
printed at a refill with statistics on is built from these rows. -/
theorem report_frequency (W : World) (n : Nat) (hits : HitTable) (row : Row)
    (hrow : row ∈ tableRows W n hits) :
    tableRowsChecked W n hits = some (tableRows W n hits) ∧
    (tableRows W n hits).map Row.mask = genMasks ∧
    row.mask ∈ genMasks ∧
    (hits.get row.mask = 0 → row.frequency = "NaN") ∧
    (hits.get row.mask ≠ 0 →
      row.frequency = W.byteSize (n / hits.get row.mask) ∧
      goDiv n (hits.get row.mask) = some (n / hits.get row.mask)) ∧
    (∀ (σ : Type) (st : State σ), bufsize ≤ st.k →
      (refill W true st).out =
        st.out ++ [Output.table ("Byte count: " ++ W.byteSize st.n)
          (tableRows W st.n st.hits)]) := by
  refine ⟨rowsChecked_eq W n hits genMasks.enum, tableRows_mask W n hits, ?_, ?_, ?_, ?_⟩
  · rw [← tableRows_mask W n hits]
    exact List.mem_map_of_mem Row.mask hrow
  · intro h0
    unfold tableRows at hrow
    obtain ⟨im, _, rfl⟩ := List.mem_map.1 hrow
    simp only at h0 ⊢
    rw [if_neg (by simpa using h0)]
  · intro hne
    unfold tableRows at hrow
    obtain ⟨im, _, rfl⟩ := List.mem_map.1 hrow
    simp only at hne ⊢
    refine ⟨by rw [if_pos hne], ?_⟩
    unfold goDiv
    rw [if_neg hne]
  · intro σ st hk
    rw [refill_of_ge W true st hk]
    rfl

/-- With 8 bytes processed and 4 hits of the 1-bit mask, the row of that mask
reports the quotient 2. -/
theorem report_frequency_witness :
    (⟨1, 1, "2"⟩ : Row).frequency =
        (demoWorld 0 [] 1).byteSize (8 / (HitTable.empty.set 1 4).get 1) ∧
      goDiv 8 ((HitTable.empty.set 1 4).get 1) = some (8 / (HitTable.empty.set 1 4).get 1) :=
  (report_frequency (demoWorld 0 [] 1) 8 (HitTable.empty.set 1 4) ⟨1, 1, "2"⟩
    (by decide)).2.2.2.2.1 (by decide)

/-- C19. The bytes passed to `Roll` are the successive buffer contents read
in order from offset 0: after `fuel` iterations the bytes rolled are, for
`i` below `min fuel fileSize`, byte `i % bufsize` of the buffer after read
number `i / bufsize`. The initial window written to the hash is the first 64
bytes of the first buffer, and when the target is at least 64 the first 64
bytes rolled are these same bytes. -/
theorem rolled_bytes (W : World) (dostats : Bool) (H : RollingHash) (fileSize : Nat)
    (hfs : fileSize < U64) (fuel : Nat) :
    (runLoop W dostats H fileSize fuel (initState W H)).rolled =
      (List.range (min fuel fileSize)).map
        (fun i => bufferAt W (i / bufsize) (i % bufsize)) ∧
    (initState W H).roll = H.write H.new ((List.range 64).map (bufferAt W 0)) ∧
    (64 ≤ fileSize → 64 ≤ fuel →
      (runLoop W dostats H fileSize fuel (initState W H)).rolled.take 64 =
        (List.range 64).map (bufferAt W 0)) := by
  have hroll : (runLoop W dostats H fileSize fuel (initState W H)).rolled =
      (List.range (min fuel fileSize)).map
        (fun i => bufferAt W (i / bufsize) (i % bufsize)) := by
    rw [(runLoop_bufInv W dostats H fileSize hfs fuel _ (initState_bufInv W H)).rolled_eq,
      runLoop_n W dostats H fileSize hfs fuel _ (initState_inv W H fileSize)]
    show (List.range (min (0 + fuel) fileSize)).map _ = _
    rw [Nat.zero_add]
  refine ⟨hroll, rfl, ?_⟩
  intro h1 h2
  rw [hroll, ← List.map_take, List.take_range,
    show min 64 (min fuel fileSize) = 64 by omega]
  apply List.map_congr_left
  intro i hi
  rw [List.mem_range] at hi
  have hd : i / bufsize = 0 := by rw [bufsize_eq]; omega
  have hm : i % bufsize = i := by rw [bufsize_eq]; omega
  rw [hd, hm]

/-- With target size 100 and 100 iterations, the first 64 bytes rolled are
the first 64 bytes of the first buffer. -/
theorem rolled_bytes_witness :
    (runLoop (demoWorld 100 [255] 1) false sum8 100 100
        (initState (demoWorld 100 [255] 1) sum8)).rolled.take 64 =
      (List.range 64).map (bufferAt (demoWorld 100 [255] 1) 0) :=
  (rolled_bytes (demoWorld 100 [255] 1) false sum8 100 (by decide) 100).2.2
    (by decide) (by decide)

/-! ## Facts about the rolling hashes -/

theorem adlerFold_eq (w : List Byte) (a0 b0 : Nat) :
    w.foldl (fun ab x =>
        ((ab.1 + x.val) % adlerMod, (ab.2 + (ab.1 + x.val) % adlerMod) % adlerMod))
      (a0 % adlerMod, b0 % adlerMod) =
    ((a0 + byteSum w) % adlerMod, (b0 + w.length * a0 + weightedSum w) % adlerMod) := by
  induction w generalizing a0 b0 with
  | nil => simp [byteSum, weightedSum]
  | cons x xs ih =>
    simp only [List.foldl_cons]
    have h1 : (a0 % adlerMod + x.val) % adlerMod = (a0 + x.val) % adlerMod := by
      unfold adlerMod; omega
    have h2 : (b0 % adlerMod + (a0 % adlerMod + x.val) % adlerMod) % adlerMod =
        (b0 + a0 + x.val) % adlerMod := by
      unfold adlerMod; omega
    rw [h2, h1, ih]
    have e1 : a0 + x.val + byteSum xs = a0 + byteSum (x :: xs) := by
      simp [byteSum]; ring
    have e2 : b0 + a0 + x.val + xs.length * (a0 + x.val) + weightedSum xs =
        b0 + (x :: xs).length * a0 + weightedSum (x :: xs) := by
      simp only [List.length_cons, weightedSum]; ring
    rw [e1, e2]

/-- The Adler-32-style pair in closed form. -/
theorem adlerSums_eq (w : List Byte) :
    adlerSums w = ((1 + byteSum w) % adlerMod, (w.length + weightedSum w) % adlerMod) := by
  have := adlerFold_eq w 1 0
  simpa [adlerSums, adlerMod] using this

theorem byteSum_append_singleton (xs : List Byte) (c : Byte) :
    byteSum (xs ++ [c]) = byteSum xs + c.val := by
  simp [byteSum]

theorem weightedSum_append_singleton (xs : List Byte) (c : Byte) :
    weightedSum (xs ++ [c]) = weightedSum xs + byteSum xs + c.val := by
  induction xs with
  | nil => simp [weightedSum, byteSum]
  | cons x xs ih =>
    show ((xs ++ [c]).length + 1) * x.val + weightedSum (xs ++ [c]) = _
    rw [ih, List.length_append, List.length_singleton]
    simp only [weightedSum, byteSum, List.map_cons, List.sum_cons]
    ring

/-- Rolling the Adler-32-style pair is recomputing it on the shifted window. -/
theorem adlerRoll_eq (out c : Byte) (xs : List Byte) :
    adlerRoll (out :: xs).length (adlerSums (out :: xs)) out c = adlerSums (xs ++ [c]) := by
  rw [adlerSums_eq, adlerSums_eq, byteSum_append_singleton, weightedSum_append_singleton]
  have hs : byteSum (out :: xs) = out.val + byteSum xs := by simp [byteSum]
  have hw : weightedSum (out :: xs) = (xs.length + 1) * out.val + weightedSum xs := rfl
  have hl1 : (out :: xs).length = xs.length + 1 := rfl
  have hl2 : (xs ++ [c]).length = xs.length + 1 := by simp
  rw [hs, hw, hl1, hl2]
  unfold adlerRoll
  have ho : out.val < 256 := out.isLt
  generalize (xs.length + 1) * out.val = q
  generalize byteSum xs = s
  generalize weightedSum xs = t
  generalize xs.length = l
  generalize out.val = o at ho ⊢
  generalize c.val = e
  clear hs hw hl1 hl2
  unfold adlerMod
  ext
  · simp only; omega
  · simp only; omega

theorem polyFold_eq_horner (p : Nat) (w : List Byte) (h0 : Nat) :
    w.foldl (fun h x => (h * p + x.val) % U32) (h0 % U32) = horner p h0 w % U32 := by
  induction w generalizing h0 with
  | nil => rfl
  | cons x xs ih =>
    simp only [List.foldl_cons, horner]
    have : ((h0 % U32) * p + x.val) % U32 = (h0 * p + x.val) % U32 := by
      rw [Nat.add_mod, Nat.mul_mod, Nat.mod_mod, ← Nat.mul_mod, ← Nat.add_mod]
    rw [this, ih]
    rfl

theorem polySum_eq_horner (p : Nat) (w : List Byte) : polySum p w = horner p 0 w % U32 :=
  polyFold_eq_horner p w 0

theorem horner_eq_add (p : Nat) (xs : List Byte) (h0 : Nat) :
    horner p h0 xs = h0 * p ^ xs.length + horner p 0 xs := by
  induction xs generalizing h0 with
  | nil => simp [horner]
  | cons y ys ih =>
    show horner p (h0 * p + y.val) ys = _
    rw [ih, show horner p 0 (y :: ys) = horner p (0 * p + y.val) ys from rfl, ih (0 * p + y.val)]
    simp only [List.length_cons, pow_succ]
    ring

theorem horner_append_singleton (p h0 : Nat) (xs : List Byte) (c : Byte) :
    horner p h0 (xs ++ [c]) = horner p h0 xs * p + c.val := by
  simp [horner, List.foldl_append]

/-- Rolling the Rabin-Karp-32-style sum is recomputing it on the shifted
window. -/
theorem polyRoll_eq (p : Nat) (out c : Byte) (xs : List Byte) :
    polyRoll p (out :: xs).length (polySum p (out :: xs)) out c = polySum p (xs ++ [c]) := by
  rw [polySum_eq_horner, polySum_eq_horner, horner_append_singleton]
  have hc : horner p 0 (out :: xs) = out.val * p ^ xs.length + horner p 0 xs := by
    show horner p (0 * p + out.val) xs = _
    rw [horner_eq_add p xs, Nat.zero_mul, Nat.zero_add]
  rw [hc]
  unfold polyRoll
  apply (ZMod.natCast_eq_natCast_iff' _ _ U32).1
  have hle : (p ^ (out :: xs).length * out.val) % U32 ≤ U32 :=
    Nat.le_of_lt (Nat.mod_lt _ (by decide))
  push_cast [Nat.cast_sub hle, ZMod.natCast_mod]
  simp only [ZMod.natCast_self, List.length_cons, pow_succ]
  ring

theorem testBit_of_lt_two_pow {x W i : Nat} (hx : x < 2 ^ W) (hi : W ≤ i) :
    x.testBit i = false :=
  Nat.testBit_lt_two_pow (Nat.lt_of_lt_of_le hx (Nat.pow_le_pow_right (by norm_num) hi))

/-- The bits of a rotated word. -/
theorem testBit_rotl (W r x i : Nat) (hr : r ≤ W) (hx : x < 2 ^ W) :
    (rotl W r x).testBit i =
      (decide (i < W) && x.testBit (if r ≤ i then i - r else W + i - r)) := by
  unfold rotl
  rw [Nat.testBit_mod_two_pow, Nat.testBit_or, Nat.testBit_shiftLeft, Nat.testBit_shiftRight]
  by_cases hi : i < W
  · by_cases hri : r ≤ i
    · have h2 : x.testBit (W - r + i) = false := testBit_of_lt_two_pow hx (by omega)
      simp [hi, hri, h2]
    · have h3 : W - r + i = W + i - r := by omega
      simp [hi, hri, h3]
  · simp [hi]

theorem rotl_lt (W r x : Nat) : rotl W r x < 2 ^ W :=
  Nat.mod_lt _ (Nat.two_pow_pos W)

theorem rotl_zero (W x : Nat) (hx : x < 2 ^ W) : rotl W 0 x = x := by
  apply Nat.eq_of_testBit_eq
  intro i
  rw [testBit_rotl W 0 x i (Nat.zero_le _) hx]
  by_cases hi : i < W
  · simp [hi]
  · simp [hi, testBit_of_lt_two_pow hx (Nat.le_of_not_lt hi)]

theorem rotl_xor (W r x y : Nat) (hr : r ≤ W) (hx : x < 2 ^ W) (hy : y < 2 ^ W) :
    rotl W r (x ^^^ y) = rotl W r x ^^^ rotl W r y := by
  apply Nat.eq_of_testBit_eq
  intro i
  rw [Nat.testBit_xor, testBit_rotl W r _ i hr (Nat.xor_lt_two_pow hx hy),
    testBit_rotl W r x i hr hx, testBit_rotl W r y i hr hy, Nat.testBit_xor]
  by_cases hi : i < W <;> simp [hi]

theorem rotl_one_rotl (W r x : Nat) (hW : 0 < W) (hr : r < W) (hx : x < 2 ^ W) :
    rotl W 1 (rotl W r x) = rotl W ((r + 1) % W) x := by
  apply Nat.eq_of_testBit_eq
  intro i
  have hmod : (r + 1) % W = if r + 1 = W then 0 else r + 1 := by
    split
    · next h => rw [h, Nat.mod_self]
    · exact Nat.mod_eq_of_lt (by omega)
  rw [testBit_rotl W 1 _ i hW (rotl_lt W r x), testBit_rotl W r x _ (Nat.le_of_lt hr) hx,
    testBit_rotl W _ x i (Nat.le_of_lt (Nat.mod_lt _ hW)) hx, hmod]
  by_cases hi : i < W
  · have h1 : (if 1 ≤ i then i - 1 else W + i - 1) < W := by split <;> omega
    simp only [hi, h1, decide_True, Bool.true_and]
    congr 1
    split <;> split <;> split <;> split <;> omega
  · simp [hi]

/-- Rotating `n` times by one bit is rotating by `n` modulo the width. -/
theorem rotl_iterate (W n x : Nat) (hW : 0 < W) (hx : x < 2 ^ W) :
    (rotl W 1)^[n] x = rotl W (n % W) x := by
  induction n with
  | zero => rw [Function.iterate_zero, id, Nat.zero_mod, rotl_zero W x hx]
  | succ n ih =>
    rw [Function.iterate_succ_apply', ih, rotl_one_rotl W _ x hW (Nat.mod_lt _ hW) hx,
      Nat.mod_add_mod]

theorem rotl_iterate_lt (W n x : Nat) (hx : x < 2 ^ W) : (rotl W 1)^[n] x < 2 ^ W := by
  cases n with
  | zero => exact hx
  | succ n => rw [Function.iterate_succ_apply']; exact rotl_lt _ _ _

theorem rotl_iterate_xor (W n x y : Nat) (hW : 0 < W) (hx : x < 2 ^ W) (hy : y < 2 ^ W) :
    (rotl W 1)^[n] (x ^^^ y) = (rotl W 1)^[n] x ^^^ (rotl W 1)^[n] y := by
  induction n with
  | zero => rfl
  | succ n ih =>
    rw [Function.iterate_succ_apply', Function.iterate_succ_apply', Function.iterate_succ_apply',
      ih, rotl_xor W 1 _ _ hW (rotl_iterate_lt W n x hx) (rotl_iterate_lt W n y hy)]

theorem buzFold_lt (W : Nat) (T : Byte → Nat) (h0 : Nat) (w : List Byte) (h : h0 < 2 ^ W) :
    buzFold W T h0 w < 2 ^ W := by
  induction w generalizing h0 with
  | nil => exact h
  | cons x xs ih =>
    exact ih _ (Nat.xor_lt_two_pow (rotl_lt _ _ _) (Nat.mod_lt _ (Nat.two_pow_pos W)))

theorem rotl_one_zero (W : Nat) : rotl W 1 0 = 0 := by
  simp [rotl]

theorem buzFold_eq (W : Nat) (T : Byte → Nat) (hW : 0 < W) (h0 : Nat) (w : List Byte)
    (h : h0 < 2 ^ W) :
    buzFold W T h0 w = (rotl W 1)^[w.length] h0 ^^^ buzFold W T 0 w := by
  induction w generalizing h0 with
  | nil => simp [buzFold]
  | cons x xs ih =>
    have hT : T x % 2 ^ W < 2 ^ W := Nat.mod_lt _ (Nat.two_pow_pos W)
    show buzFold W T (rotl W 1 h0 ^^^ (T x % 2 ^ W)) xs =
      (rotl W 1)^[xs.length + 1] h0 ^^^ buzFold W T (rotl W 1 0 ^^^ (T x % 2 ^ W)) xs
    rw [ih _ (Nat.xor_lt_two_pow (rotl_lt _ _ _) hT), rotl_one_zero, Nat.zero_xor, ih _ hT,
      rotl_iterate_xor W _ _ _ hW (rotl_lt _ _ _) hT, Function.iterate_succ_apply,
      Nat.xor_assoc]

/-- Rolling the rotate/XOR sum is recomputing it on the shifted window. -/
theorem buzRoll_eq (W : Nat) (T : Byte → Nat) (hW : 0 < W) (out c : Byte) (xs : List Byte) :
    buzRoll W T (out :: xs).length (buzSum W T (out :: xs)) out c = buzSum W T (xs ++ [c]) := by
  have hT : T out % 2 ^ W < 2 ^ W := Nat.mod_lt _ (Nat.two_pow_pos W)
  have hcons : buzSum W T (out :: xs) =
      (rotl W 1)^[xs.length] (T out % 2 ^ W) ^^^ buzFold W T 0 xs := by
    show buzFold W T (rotl W 1 0 ^^^ (T out % 2 ^ W)) xs = _
    rw [rotl_one_zero, Nat.zero_xor, buzFold_eq W T hW _ xs hT]
  have happ : buzSum W T (xs ++ [c]) = rotl W 1 (buzFold W T 0 xs) ^^^ (T c % 2 ^ W) := by
    simp [buzSum, buzFold, List.foldl_append]
  rw [hcons, happ]
  unfold buzRoll
  rw [rotl_xor W 1 _ _ hW (rotl_iterate_lt W _ _ hT) (buzFold_lt W T 0 xs (Nat.two_pow_pos W)),
    ← rotl_iterate W _ _ hW hT, List.length_cons, ← Function.iterate_succ_apply' (rotl W 1)]
  generalize (rotl W 1)^[xs.length + 1] (T out % 2 ^ W) = a
  generalize rotl W 1 (buzFold W T 0 xs) = b
  rw [Nat.xor_comm a b, Nat.xor_assoc b a a, Nat.xor_self, Nat.xor_zero]

/-! ## The rolling hashes: main result -/

/-- C14. For every selectable algorithm, with any multiplier and any byte
tables, every window of 64 bytes and every next byte `c`: both the window and
the shifted window (the window without its first byte, followed by `c`)
initialize the hash, and rolling `c` into the hash of the window gives the
state, hence the checksum value, of the hash of the shifted window. -/
theorem roll_eq_reinitialize (p : Nat) (T32 T64 : Byte → Nat) (algo : Algorithm)
    (window : List Byte) (c : Byte) (hlen : window.length = windowSize) :
    ∃ s s', (specHash p T32 T64 algo).init window = .ok s ∧
      (specHash p T32 T64 algo).init (window.drop 1 ++ [c]) = .ok s' ∧
      (specHash p T32 T64 algo).roll s c = s' ∧
      (specHash p T32 T64 algo).value ((specHash p T32 T64 algo).roll s c) =
        (specHash p T32 T64 algo).value s' := by
  obtain ⟨out, xs, rfl⟩ : ∃ out xs, window = out :: xs := by
    cases window with
    | nil => cases hlen
    | cons out xs => exact ⟨out, xs, rfl⟩
  have hlen' : ((out :: xs).drop 1 ++ [c]).length = windowSize := by
    rw [← hlen]; simp
  cases algo
  · refine ⟨(out :: xs, adlerSums (out :: xs)), (xs ++ [c], adlerSums (xs ++ [c])),
      if_pos hlen, if_pos hlen', ?_, ?_⟩
    · show (xs ++ [c], adlerRoll (out :: xs).length (adlerSums (out :: xs)) out c) = _
      rw [adlerRoll_eq]
    · show adlerHash.value (xs ++ [c], adlerRoll (out :: xs).length (adlerSums (out :: xs)) out c)
        = _
      rw [adlerRoll_eq]
      rfl
  · refine ⟨(out :: xs, polySum p (out :: xs)), (xs ++ [c], polySum p (xs ++ [c])),
      if_pos hlen, if_pos hlen', ?_, ?_⟩
    · show (xs ++ [c], polyRoll p (out :: xs).length (polySum p (out :: xs)) out c) = _
      rw [polyRoll_eq]
    · show polyRoll p (out :: xs).length (polySum p (out :: xs)) out c = _
      rw [polyRoll_eq]
      rfl
  · refine ⟨(out :: xs, buzSum 32 T32 (out :: xs)), (xs ++ [c], buzSum 32 T32 (xs ++ [c])),
      if_pos hlen, if_pos hlen', ?_, ?_⟩
    · show (xs ++ [c], buzRoll 32 T32 (out :: xs).length (buzSum 32 T32 (out :: xs)) out c) = _
      rw [buzRoll_eq 32 T32 (by norm_num)]
    · show buzRoll 32 T32 (out :: xs).length (buzSum 32 T32 (out :: xs)) out c = _
      rw [buzRoll_eq 32 T32 (by norm_num)]
      rfl
  · refine ⟨(out :: xs, buzSum 64 T64 (out :: xs)), (xs ++ [c], buzSum 64 T64 (xs ++ [c])),
      if_pos hlen, if_pos hlen', ?_, ?_⟩
    · show (xs ++ [c], buzRoll 64 T64 (out :: xs).length (buzSum 64 T64 (out :: xs)) out c) = _
      rw [buzRoll_eq 64 T64 (by norm_num)]
    · show buzRoll 64 T64 (out :: xs).length (buzSum 64 T64 (out :: xs)) out c = _
      rw [buzRoll_eq 64 T64 (by norm_num)]
      rfl

/-- The 32-bit rotate/XOR hash of a window of 64 bytes 7, rolled by the byte
9, is the hash of the shifted window. -/
theorem roll_eq_reinitialize_witness :
    ∃ s s', (specHash 65521 (fun b => b.val * 40503) (fun b => b.val * 40503)
        .buzhash32).init (List.replicate 64 7) = .ok s ∧
      (specHash 65521 (fun b => b.val * 40503) (fun b => b.val * 40503)
        .buzhash32).init ((List.replicate 64 7).drop 1 ++ [9]) = .ok s' ∧
      (specHash 65521 (fun b => b.val * 40503) (fun b => b.val * 40503)
        .buzhash32).roll s 9 = s' ∧
      (specHash 65521 (fun b => b.val * 40503) (fun b => b.val * 40503)
        .buzhash32).value
          ((specHash 65521 (fun b => b.val * 40503) (fun b => b.val * 40503)
            .buzhash32).roll s 9) =
        (specHash 65521 (fun b => b.val * 40503) (fun b => b.val * 40503)
          .buzhash32).value s' :=
  roll_eq_reinitialize 65521 (fun b => b.val * 40503) (fun b => b.val * 40503) .buzhash32
    (List.replicate 64 7) 9 (by decide)

end Roll
